import Mathlib

/-!
# Ingress manager controller (`11/pkg/controller.go`)

A shallow embedding of the controller that keeps an ingress in step with the
`ingress/http` annotation of a service: the event handlers, the reconcile
function `syncService`, the resource builder `constructIngress`, the retry
policy `handleError` and the worker step `processNextItem`.

Go strings are `String`, Go maps are association lists, a Go `(value, error)`
result is an `Except`, and every call that leaves the controller (API client,
work queue, error sink, log) is recorded as an `Effect`.
-/

namespace IngressManager

/-! ## Data model -/

/-- The `metav1.StatusReason` values an API error can carry. -/
inductive StatusReason
  | Unknown
  | NotFound
  | AlreadyExists
  | Forbidden
  | Timeout
  | InternalError
deriving DecidableEq, Repr

/-- A Go `error` value as the controller can observe it: an API status error
with its reason, the error `fmt.Errorf("unexpected key format: %q", key)` of
the key splitter, or any other error. A nil error is `none : Option Err`. -/
inductive Err
  | status (reason : StatusReason) (message : String)
  | unexpectedKeyFormat (key : String)
  | other (message : String)
deriving DecidableEq, Repr

/-- The type `metav1.OwnerReference`; the two flags are Go `*bool`. -/
structure OwnerReference where
  APIVersion : String
  Kind : String
  Name : String
  UID : String
  Controller : Option Bool
  BlockOwnerDeletion : Option Bool
deriving DecidableEq, Repr

/-- The fields of `metav1.ObjectMeta` the controller reads or writes. -/
structure ObjectMeta where
  Name : String
  Namespace : String
  UID : String
  Labels : List (String × String)
  Annotations : List (String × String)
  OwnerReferences : List OwnerReference
deriving DecidableEq, Repr

/-- The zero value of `ObjectMeta`. -/
def ObjectMeta.zero : ObjectMeta :=
  { Name := "", Namespace := "", UID := "", Labels := [], Annotations := [],
    OwnerReferences := [] }

/-- A `corev1.Service`: its metadata and the ports of its spec. -/
structure Service where
  ObjectMeta : ObjectMeta
  Ports : List Nat
deriving DecidableEq, Repr

/-- The type `networkingv1.PathType`. -/
inductive PathType
  | Exact
  | Prefix
  | ImplementationSpecific
deriving DecidableEq, Repr

/-- The type `networkingv1.ServiceBackendPort`. -/
structure ServiceBackendPort where
  Name : String
  Number : Int
deriving DecidableEq, Repr

/-- The type `networkingv1.IngressServiceBackend`. -/
structure IngressServiceBackend where
  Name : String
  Port : ServiceBackendPort
deriving DecidableEq, Repr

/-- The type `networkingv1.IngressBackend`; `Resource` is a typed local
object reference, kept as its name. -/
structure IngressBackend where
  Service : Option IngressServiceBackend
  Resource : Option String
deriving DecidableEq, Repr

/-- The type `networkingv1.HTTPIngressPath`. -/
structure HTTPIngressPath where
  Path : String
  PathType : Option PathType
  Backend : IngressBackend
deriving DecidableEq, Repr

/-- The type `networkingv1.HTTPIngressRuleValue`. -/
structure HTTPIngressRuleValue where
  Paths : List HTTPIngressPath
deriving DecidableEq, Repr

/-- The type `networkingv1.IngressRule` (the embedded `IngressRuleValue` has
the single field `HTTP`). -/
structure IngressRule where
  Host : String
  HTTP : Option HTTPIngressRuleValue
deriving DecidableEq, Repr

/-- The type `networkingv1.IngressTLS`. -/
structure IngressTLS where
  Hosts : List String
  SecretName : String
deriving DecidableEq, Repr

/-- The type `networkingv1.IngressSpec`. -/
structure IngressSpec where
  IngressClassName : Option String
  DefaultBackend : Option IngressBackend
  TLS : List IngressTLS
  Rules : List IngressRule
deriving DecidableEq, Repr

/-- A `networkingv1.Ingress`. -/
structure Ingress where
  ObjectMeta : ObjectMeta
  Spec : IngressSpec
deriving DecidableEq, Repr

/-! ## Library functions the controller calls -/

/-- Modelled from the spec: `errors.IsNotFound` of the apimachinery library,
whose source is not part of the repository: it holds of an error exactly when
the error is an API status error whose reason is NotFound, and is false of the
nil error. -/
def IsNotFound : Option Err → Bool
  | some (Err.status StatusReason.NotFound _) => true
  | _ => false

/-- Modelled from the spec: `metav1.NewControllerRef(owner, gvk)` of the
apimachinery library, whose source is not part of the repository: the owner
reference records the API version and kind given, the owner's name and UID,
and has both the controller and the block-owner-deletion flag set. -/
def NewControllerRef (owner : ObjectMeta) (apiVersion kind : String) : OwnerReference :=
  { APIVersion := apiVersion, Kind := kind, Name := owner.Name, UID := owner.UID,
    Controller := some true, BlockOwnerDeletion := some true }

/-- Modelled from the spec: `metav1.GetControllerOf` of the apimachinery
library, whose source is not part of the repository: the first owner reference
whose controller flag is set and true, or nil when there is none. -/
def GetControllerOf (obj : ObjectMeta) : Option OwnerReference :=
  obj.OwnerReferences.find? (fun r => r.Controller == some true)

/-- The Go map index `m[key]` with the comma-ok form: the value and whether
the key is present. -/
def mapIndex (m : List (String × String)) (key : String) : String × Bool :=
  match m.lookup key with
  | some v => (v, true)
  | none => ("", false)

/-! ## The resource builder -/

/-- The method `constructIngress` of `controller.go`. -/
def constructIngress (service : Service) : Ingress :=
  let ingress : Ingress :=
    { ObjectMeta := ObjectMeta.zero,
      Spec := { IngressClassName := none, DefaultBackend := none, TLS := [], Rules := [] } }
  let ingress : Ingress :=
    { ingress with
      ObjectMeta :=
        { ingress.ObjectMeta with
          OwnerReferences := [NewControllerRef service.ObjectMeta "v1" "Service"] } }
  let ingress : Ingress :=
    { ingress with ObjectMeta := { ingress.ObjectMeta with Name := service.ObjectMeta.Name } }
  let ingress : Ingress :=
    { ingress with
      ObjectMeta := { ingress.ObjectMeta with Namespace := service.ObjectMeta.Namespace } }
  let pathType := PathType.Prefix
  let icn := "nginx"
  { ingress with
    Spec :=
      { IngressClassName := some icn
        DefaultBackend := none
        TLS := []
        Rules :=
          [ { Host := "example.com"
              HTTP := some
                { Paths :=
                    [ { Path := "/"
                        PathType := some pathType
                        Backend :=
                          { Service := some
                              { Name := service.ObjectMeta.Name
                                Port := { Name := "", Number := 80 } }
                            Resource := none } } ] } } ] } }

/-! ## Keys -/

/-- Modelled from the spec: `strings.Split(s, "/")` of the Go standard
library, on the characters of `s`: the pieces between the occurrences of the
separator, one piece more than there are separators. -/
def splitSlash : List Char → List (List Char)
  | [] => [[]]
  | c :: cs =>
    if c = '/' then [] :: splitSlash cs
    else
      match splitSlash cs with
      | [] => [[c]]
      | p :: ps => (c :: p) :: ps

/-- Modelled from the spec: `cache.SplitMetaNamespaceKey` of the client-go
library, whose source is not part of the repository: one part is a name
without namespace, two parts are namespace and name, anything else is the
error "unexpected key format". -/
def SplitMetaNamespaceKey (key : String) : Except Err (String × String) :=
  match splitSlash key.data with
  | [name] => Except.ok ("", String.mk name)
  | [ns, name] => Except.ok (String.mk ns, String.mk name)
  | _ => Except.error (Err.unexpectedKeyFormat key)

/-- Modelled from the spec: `cache.MetaNamespaceKeyFunc` of the client-go
library, whose source is not part of the repository, on an object with
metadata: `namespace/name`, or the name alone when the namespace is empty. -/
def MetaNamespaceKeyFunc (obj : ObjectMeta) : String :=
  if obj.Namespace ≠ "" then obj.Namespace ++ "/" ++ obj.Name else obj.Name

/-! ## The work queue -/

/-- Modelled from the spec: the rate-limiting work queue of the client-go
library, whose source is not part of the repository (the Key Queue of the
spec). `queue` is the FIFO of keys ready for delivery, `dirty` the keys that
need processing, `processing` the keys handed to a worker and not yet marked
done, `failures` the per-key retry count kept by the rate limiter, and
`waitingForAdd` the keys whose delayed insertion is still pending. -/
structure WorkQueue where
  queue : List String
  dirty : String → Bool
  processing : String → Bool
  shuttingDown : Bool
  failures : String → Nat
  waitingForAdd : List String

namespace WorkQueue

/-- Modelled from the spec: a freshly constructed queue
(`workqueue.NewNamedRateLimitingQueue`), empty and with no retry counts. -/
def empty : WorkQueue :=
  { queue := [], dirty := fun _ => false, processing := fun _ => false,
    shuttingDown := false, failures := fun _ => 0, waitingForAdd := [] }

/-- Modelled from the spec: `queue.Add` (deduplicating insertion): nothing
happens for a key already dirty; a key being processed is only marked dirty
(it is redelivered when its processing completes); otherwise the key is
appended to the FIFO. -/
def Add (q : WorkQueue) (item : String) : WorkQueue :=
  if q.shuttingDown then q
  else if q.dirty item then q
  else
    let q := { q with dirty := fun x => if x = item then true else q.dirty x }
    if q.processing item then q
    else { q with queue := q.queue ++ [item] }

/-- Modelled from the spec: `queue.Get` (blocking dequeue): `none` when the
caller blocks (nothing to deliver, queue not shut down), otherwise the key or
the shutdown signal; a delivered key moves from dirty to processing. -/
def Get (q : WorkQueue) : Option (String × Bool × WorkQueue) :=
  match q.queue with
  | [] => if q.shuttingDown then some ("", true, q) else none
  | item :: rest =>
    some (item, false,
      { q with
        queue := rest
        processing := fun x => if x = item then true else q.processing x
        dirty := fun x => if x = item then false else q.dirty x })

/-- Modelled from the spec: `queue.Done` (completion of an item): the key
leaves processing and, if it was marked dirty meanwhile, is appended to the
FIFO for redelivery. -/
def Done (q : WorkQueue) (item : String) : WorkQueue :=
  let q := { q with processing := fun x => if x = item then false else q.processing x }
  if q.dirty item then { q with queue := q.queue ++ [item] } else q

/-- Modelled from the spec: `queue.NumRequeues`: the retry count of a key. -/
def NumRequeues (q : WorkQueue) (item : String) : Nat :=
  q.failures item

/-- Modelled from the spec: `queue.AddRateLimited`: the retry count of the
key rises by one and the key is scheduled for insertion after the backoff
delay (a key already waiting is not scheduled twice). -/
def AddRateLimited (q : WorkQueue) (item : String) : WorkQueue :=
  let q := { q with failures := fun x => if x = item then q.failures x + 1 else q.failures x }
  if q.shuttingDown then q
  else if item ∈ q.waitingForAdd then q
  else { q with waitingForAdd := q.waitingForAdd ++ [item] }

/-- Modelled from the spec: `queue.Forget`: the retry count of the key is
reset to zero. -/
def Forget (q : WorkQueue) (item : String) : WorkQueue :=
  { q with failures := fun x => if x = item then 0 else q.failures x }

/-- Modelled from the spec: the backoff delay of a key scheduled by
`AddRateLimited` elapses: it leaves the waiting list and is inserted with
`Add`. Nothing happens when the key is not waiting. -/
def TimerFire (q : WorkQueue) (item : String) : WorkQueue :=
  if item ∈ q.waitingForAdd then
    Add { q with waitingForAdd := q.waitingForAdd.erase item } item
  else q

end WorkQueue

/-! ## The controller -/

/-- Every call by which the controller acts on the world outside it. -/
inductive Effect
  | Create (ns : String) (ig : Ingress)
  | Delete (ns : String) (name : String)
  | QueueGet
  | QueueAdd (key : String)
  | QueueAddRateLimited (key : String)
  | QueueForget (key : String)
  | QueueDone (key : String)
  | HandleError (err : Err)
  | Println (line : String)
deriving DecidableEq, Repr

/-- The two mutating calls of the API client the controller uses,
`Ingresses(ns).Create` and `Ingresses(ns).Delete`, each as the error it
returns (`none` is success). -/
structure Client where
  Create : String → Ingress → Option Err
  Delete : String → String → Option Err

/-- The `controller` struct of `controller.go`. A lister lookup
`Lister.X(ns).Get(name)` returns either the object or an error, never both. -/
structure controller where
  client : Client
  ingressLister : String → String → Except Err Ingress
  serviceLister : String → String → Except Err Service
  queue : WorkQueue

/-- The error component of a Go `(object, error)` result. -/
def errOf {α : Type} : Except Err α → Option Err
  | Except.ok _ => none
  | Except.error e => some e

/-- The object component of a Go `(object, error)` result (nil on error). -/
def objOf {α : Type} : Except Err α → Option α
  | Except.ok a => some a
  | Except.error _ => none

/-- The method `enqueue`; `MetaNamespaceKeyFunc` does not fail on an object
that has metadata. -/
def enqueue (c : controller) (obj : Service) : controller × List Effect :=
  let key := MetaNamespaceKeyFunc obj.ObjectMeta
  ({ c with queue := c.queue.Add key }, [Effect.QueueAdd key])

/-- The method `addService`. -/
def addService (c : controller) (obj : Service) : controller × List Effect :=
  enqueue c obj

/-- The method `updateService`; `reflect.DeepEqual` is structural equality. -/
def updateService (c : controller) (oldObj newObj : Service) : controller × List Effect :=
  if oldObj = newObj then (c, [])
  else enqueue c newObj

/-- The method `deleteIngress`. -/
def deleteIngress (c : controller) (ingress : Ingress) : controller × List Effect :=
  match GetControllerOf ingress.ObjectMeta with
  | none => (c, [])
  | some ownerReference =>
    if ownerReference.Kind ≠ "Service" then (c, [])
    else
      let key := ingress.ObjectMeta.Namespace ++ "/" ++ ingress.ObjectMeta.Name
      ({ c with queue := c.queue.Add key }, [Effect.QueueAdd key])

/-- The method `syncService`: the effects it issues and the error it
returns. -/
def syncService (c : controller) (item : String) : List Effect × Option Err :=
  match SplitMetaNamespaceKey item with
  | Except.error err => ([], some err)
  | Except.ok (namespaceKey, name) =>
    match c.serviceLister namespaceKey name with
    | Except.error err =>
      if IsNotFound (some err) then ([], none) else ([], some err)
    | Except.ok service =>
      let ok := (mapIndex service.ObjectMeta.Annotations "ingress/http").2
      let res := c.ingressLister namespaceKey name
      let ingress := objOf res
      let err := errOf res
      if err ≠ none && !IsNotFound err then ([], err)
      else if ok && IsNotFound err then
        let ig := constructIngress service
        match c.client.Create namespaceKey ig with
        | some err => ([Effect.Create namespaceKey ig], some err)
        | none => ([Effect.Create namespaceKey ig], none)
      else if !ok && ingress ≠ none then
        match c.client.Delete namespaceKey name with
        | some err => ([Effect.Delete namespaceKey name], some err)
        | none => ([Effect.Delete namespaceKey name], none)
      else ([], none)

/-- The constant `maxRetry`. -/
def maxRetry : Nat := 10

/-- The constant `workerNum`. -/
def workerNum : Nat := 5

/-- The method `handleError`. -/
def handleError (c : controller) (key : String) (err : Err) : controller × List Effect :=
  if c.queue.NumRequeues key ≤ maxRetry then
    ({ c with queue := c.queue.AddRateLimited key }, [Effect.QueueAddRateLimited key])
  else
    ({ c with queue := c.queue.Forget key }, [Effect.HandleError err, Effect.QueueForget key])

/-- The method `processNextItem`: `none` while `queue.Get` blocks, otherwise
the returned flag, the controller afterwards and the effects in order; the
deferred `queue.Done` runs last. -/
def processNextItem (c : controller) : Option (Bool × controller × List Effect) :=
  match c.queue.Get with
  | none => none
  | some (item, shutdow, q) =>
    let c := { c with queue := q }
    if shutdow then some (false, c, [Effect.QueueGet])
    else
      let key := item
      let (calls, err) := syncService c key
      let (c, handled) :=
        match err with
        | some err => handleError c key err
        | none => (c, [])
      some (true, { c with queue := c.queue.Done item },
        [Effect.QueueGet, Effect.Println key] ++ calls ++ handled ++ [Effect.QueueDone item])

/-! ## The cluster as the controller observes and changes it -/

/-- The result of a mutating call: the error the client returns for it. Calls
that are not API calls have none. -/
def Client.run (cl : Client) : Effect → Option Err
  | Effect.Create ns ig => cl.Create ns ig
  | Effect.Delete ns name => cl.Delete ns name
  | _ => none

/-- The services and ingresses of the cluster, as the caches hold them. -/
structure Cluster where
  services : List Service
  ingresses : List Ingress

namespace Cluster

/-- Modelled from the spec: the service lister over the cache (client-go
library, whose source is not part of the repository),
`GetSource(namespace, name)`: the service of that namespace and name, or a
NotFound error. -/
def serviceLister (cl : Cluster) (ns name : String) : Except Err Service :=
  match cl.services.find?
      (fun s => s.ObjectMeta.Namespace == ns && s.ObjectMeta.Name == name) with
  | some s => Except.ok s
  | none => Except.error (Err.status StatusReason.NotFound ("service " ++ name ++ " not found"))

/-- Modelled from the spec: the ingress lister over the cache (client-go
library, whose source is not part of the repository),
`GetDerived(namespace, name)`: the ingress of that namespace and name, or a
NotFound error. -/
def ingressLister (cl : Cluster) (ns name : String) : Except Err Ingress :=
  match cl.ingresses.find?
      (fun i => i.ObjectMeta.Namespace == ns && i.ObjectMeta.Name == name) with
  | some i => Except.ok i
  | none => Except.error (Err.status StatusReason.NotFound ("ingress " ++ name ++ " not found"))

/-- A controller whose listers read this cluster. -/
def controller (cl : Cluster) (client : Client) (q : WorkQueue) : IngressManager.controller :=
  { client := client, ingressLister := cl.ingressLister, serviceLister := cl.serviceLister,
    queue := q }

/-- The cluster after one call: a successful Create adds the ingress it was
given, a successful Delete removes the ingress of that namespace and name, a
failed call and every other effect change nothing. -/
def applyEffect (client : Client) (cl : Cluster) (e : Effect) : Cluster :=
  match e with
  | Effect.Create ns ig =>
    if client.Create ns ig = none then { cl with ingresses := cl.ingresses ++ [ig] } else cl
  | Effect.Delete ns name =>
    if client.Delete ns name = none then
      { cl with
        ingresses := cl.ingresses.filter
          (fun i => !(i.ObjectMeta.Namespace == ns && i.ObjectMeta.Name == name)) }
    else cl
  | _ => cl

/-- The cluster after the effects of one `syncService` invocation. -/
def afterSync (client : Client) (cl : Cluster) (effects : List Effect) : Cluster :=
  effects.foldl (applyEffect client) cl

end Cluster

/-- Whether the controller owner reference of an ingress has kind "Service"
and the UID of the given service. -/
def ownedByService (S : Service) (ig : Ingress) : Bool :=
  match GetControllerOf ig.ObjectMeta with
  | some r => r.Kind == "Service" && r.UID == S.ObjectMeta.UID
  | none => false

/-! ## Concrete objects -/

/-- A client whose calls all succeed. -/
def okClient : Client :=
  { Create := fun _ _ => none, Delete := fun _ _ => none }

/-- A client whose calls all fail with a server timeout. -/
def failingClient : Client :=
  { Create := fun _ _ => some (Err.status StatusReason.Timeout "timeout"),
    Delete := fun _ _ => some (Err.status StatusReason.Timeout "timeout") }

/-- The service `default/foo` carrying the annotation, with an empty value. -/
def fooAnnotated : Service :=
  { ObjectMeta :=
      { Name := "foo", Namespace := "default", UID := "uid-foo", Labels := [],
        Annotations := [("ingress/http", "")], OwnerReferences := [] },
    Ports := [80] }

/-- The service `default/foo` without the annotation. -/
def fooPlain : Service :=
  { ObjectMeta :=
      { Name := "foo", Namespace := "default", UID := "uid-foo", Labels := [],
        Annotations := [], OwnerReferences := [] },
    Ports := [80] }

/-- An ingress `default/foo` that nobody owns (no owner reference). -/
def fooUnowned : Ingress :=
  { ObjectMeta :=
      { Name := "foo", Namespace := "default", UID := "uid-ing", Labels := [],
        Annotations := [], OwnerReferences := [] },
    Spec := { IngressClassName := none, DefaultBackend := none, TLS := [], Rules := [] } }

/-- The cluster holding only the annotated service `default/foo`. -/
def clusterAnnotatedNoIngress : Cluster :=
  { services := [fooAnnotated], ingresses := [] }

/-- The cluster holding the annotated service `default/foo` and an ingress
`default/foo` that nobody owns. -/
def clusterAnnotatedForeignIngress : Cluster :=
  { services := [fooAnnotated], ingresses := [fooUnowned] }

/-- The cluster holding the service `default/foo` without annotation and an
ingress `default/foo` that nobody owns. -/
def clusterPlainForeignIngress : Cluster :=
  { services := [fooPlain], ingresses := [fooUnowned] }

/-! ## Repeated failures -/

/-- The retry policy applied to `n` consecutive failures of `key`: the
controller afterwards and, for each failure in order, the effects of
`handleError`. -/
def failRepeatedly (c : controller) (key : String) (err : Err) :
    Nat → controller × List (List Effect)
  | 0 => (c, [])
  | n + 1 =>
    let (c1, handled) := handleError c key err
    let (c2, rest) := failRepeatedly c1 key err n
    (c2, handled :: rest)

/-- A controller whose service lookups all fail with a server timeout, so
that every `syncService` fails. -/
def timeoutController : controller :=
  { client := okClient
    ingressLister := fun _ _ => Except.error (Err.status StatusReason.Timeout "timeout")
    serviceLister := fun _ _ => Except.error (Err.status StatusReason.Timeout "timeout")
    queue := WorkQueue.empty }

/-! ## Successive reconciliations of one key -/

/-- Successive reconciliations of `key`: before each one an event inserts the
key into the queue, then a worker runs `processNextItem`. The list gives, for
each round, the listers and the client as they are at that time (the queue
field of its entries is not used: the queue is the one the previous round
left). The result is the queue at the end and the effects of each round. -/
def rounds (q : WorkQueue) (key : String) : List controller → Option (WorkQueue × List (List Effect))
  | [] => some (q, [])
  | env :: envs =>
    match processNextItem { env with queue := q.Add key } with
    | none => none
    | some (_, c, eff) =>
      match rounds c.queue key envs with
      | none => none
      | some (q2, effs) => some (q2, eff :: effs)

/-- Whether `syncService` fails on `key` with the listers and client of
`env`. -/
def syncFails (key : String) (env : controller) : Bool :=
  (syncService env key).2.isSome

/-- A queue with nothing to deliver in which `key` is neither dirty nor being
processed. -/
def WorkQueue.idle (q : WorkQueue) (key : String) : Prop :=
  q.queue = [] ∧ q.dirty key = false ∧ q.processing key = false ∧ q.shuttingDown = false

/-- A queue holding `default/foo`, whose retry count is one after an earlier
failure. -/
def queueAfterOneFailure : WorkQueue :=
  (WorkQueue.empty.AddRateLimited "default/foo").TimerFire "default/foo"

/-! ## Interleaved use of the queue -/

/-- The calls the event handlers, the workers and the delay timer make on the
shared queue; each runs under the lock of the queue, so a concurrent execution
is a sequence of them. -/
inductive QueueOp
  | Add (key : String)
  | Get
  | Done (key : String)
  | AddRateLimited (key : String)
  | Forget (key : String)
  | TimerFire (key : String)
deriving DecidableEq, Repr

/-- One call on the queue: the queue afterwards and, for a `Get` that
returns, the key handed to the worker (a `Get` that would block, or that
reports shutdown, hands out nothing). -/
def WorkQueue.step (q : WorkQueue) : QueueOp → WorkQueue × Option String
  | QueueOp.Add k => (q.Add k, none)
  | QueueOp.Get =>
    match q.Get with
    | some (item, false, q1) => (q1, some item)
    | _ => (q, none)
  | QueueOp.Done k => (q.Done k, none)
  | QueueOp.AddRateLimited k => (q.AddRateLimited k, none)
  | QueueOp.Forget k => (q.Forget k, none)
  | QueueOp.TimerFire k => (q.TimerFire k, none)

/-- A sequence of calls on the queue: the queue afterwards and the keys
handed to workers, in order. -/
def WorkQueue.run (q : WorkQueue) : List QueueOp → WorkQueue × List String
  | [] => (q, [])
  | op :: ops =>
    let (q1, d) := q.step op
    let (q2, ds) := q1.run ops
    (q2, d.toList ++ ds)

/-- Whether a sequence of calls respects the worker discipline of
`processNextItem`: `Done` is only called on a key that was handed out by `Get`
and not yet marked done. -/
def WorkQueue.admits (q : WorkQueue) : List QueueOp → Bool
  | [] => true
  | op :: ops =>
    (match op with
      | QueueOp.Done k => q.processing k
      | _ => true) && (q.step op).1.admits ops

/-- The queue invariant: no key is queued twice, and a queued key is dirty
and not being processed. -/
def WorkQueue.Inv (q : WorkQueue) : Prop :=
  q.queue.Nodup ∧ (∀ k ∈ q.queue, q.dirty k = true ∧ q.processing k = false) ∧
    q.shuttingDown = false

/-! ## Theorems -/

/-- C7: for every service S, `constructIngress S` has S's name and namespace,
exactly one owner reference (kind "Service", name S.Name, UID S.UID,
controller flag true), ingress class "nginx", and exactly one rule, with host
"example.com" and exactly one HTTP path "/" of type Prefix whose backend is
the service S.Name on port number 80. -/
theorem constructIngress_spec (S : Service) :
    (constructIngress S).ObjectMeta.Name = S.ObjectMeta.Name ∧
    (constructIngress S).ObjectMeta.Namespace = S.ObjectMeta.Namespace ∧
    (∃ r, (constructIngress S).ObjectMeta.OwnerReferences = [r] ∧
      r.Kind = "Service" ∧ r.Name = S.ObjectMeta.Name ∧ r.UID = S.ObjectMeta.UID ∧
      r.Controller = some true) ∧
    (constructIngress S).Spec.IngressClassName = some "nginx" ∧
    (∃ rule http path backend,
      (constructIngress S).Spec.Rules = [rule] ∧ rule.Host = "example.com" ∧
      rule.HTTP = some http ∧ http.Paths = [path] ∧ path.Path = "/" ∧
      path.PathType = some PathType.Prefix ∧
      path.Backend.Service = some backend ∧ path.Backend.Resource = none ∧
      backend.Name = S.ObjectMeta.Name ∧ backend.Port.Number = 80) := by
  refine ⟨rfl, rfl, ⟨_, rfl, rfl, rfl, rfl, rfl⟩, rfl, ?_⟩
  exact ⟨_, _, _, _, rfl, rfl, rfl, rfl, rfl, rfl, rfl, rfl, rfl, rfl⟩

/-! ### Keys -/

theorem splitSlash_ne_nil (l : List Char) : splitSlash l ≠ [] := by
  induction l with
  | nil => simp [splitSlash]
  | cons c cs ih =>
    unfold splitSlash
    split
    · simp
    · split
      · simp
      · simp

theorem splitSlash_length_pos (l : List Char) : 1 ≤ (splitSlash l).length := by
  have h := splitSlash_ne_nil l
  cases hs : splitSlash l with
  | nil => exact absurd hs h
  | cons a t => simp

theorem SplitMetaNamespaceKey_error_iff (key : String) (e : Err) :
    SplitMetaNamespaceKey key = Except.error e ↔
      2 < (splitSlash key.data).length ∧ e = Err.unexpectedKeyFormat key := by
  have hpos := splitSlash_length_pos key.data
  unfold SplitMetaNamespaceKey
  rcases hs : splitSlash key.data with _ | ⟨a, _ | ⟨b, _ | ⟨d, t⟩⟩⟩
  · rw [hs] at hpos; simp at hpos
  · simp
  · simp
  · simp [eq_comm]

theorem SplitMetaNamespaceKey_ok_length (key ns name : String)
    (h : SplitMetaNamespaceKey key = Except.ok (ns, name)) :
    (splitSlash key.data).length ≤ 2 := by
  by_contra hlt
  have : SplitMetaNamespaceKey key = Except.error (Err.unexpectedKeyFormat key) :=
    (SplitMetaNamespaceKey_error_iff key _).2 ⟨by omega, rfl⟩
  rw [this] at h
  cases h

/-! ### Annotations -/

theorem mapIndex_present_iff (m : List (String × String)) (key : String) :
    (mapIndex m key).2 = true ↔ ∃ v, (key, v) ∈ m := by
  unfold mapIndex
  induction m with
  | nil => simp [List.lookup]
  | cons p m ih =>
    obtain ⟨k, v⟩ := p
    by_cases hk : key = k
    · subst hk
      simp [List.lookup]
    · have hk2 : (key == k) = false := by simpa using hk
      simp only [List.lookup, hk2, List.mem_cons, Prod.mk.injEq, hk, false_and, false_or]
      exact ih

/-! ### The reconcile function -/

theorem IsNotFound_none : IsNotFound none = false := rfl

/-- C1: when the key splits into (namespace, name), the service lookup
succeeds and the ingress lookup succeeds or reports NotFound, `syncService`
follows the decision table on (annotation "ingress/http" present as a map
key, ingress present): present/absent gives exactly the one call Create of
`constructIngress service` in that namespace; absent/present gives exactly the
one call Delete of that name in that namespace; present/present and
absent/absent give no call; in every case at most one call is issued. -/
theorem syncService_decision_table (c : controller) (item ns name : String) (S : Service)
    (hkey : SplitMetaNamespaceKey item = Except.ok (ns, name))
    (hsvc : c.serviceLister ns name = Except.ok S)
    (hing : (∃ ig, c.ingressLister ns name = Except.ok ig) ∨
      (∃ e, c.ingressLister ns name = Except.error e ∧ IsNotFound (some e) = true)) :
    (((∃ v, ("ingress/http", v) ∈ S.ObjectMeta.Annotations) ∧
        (¬ ∃ ig, c.ingressLister ns name = Except.ok ig)) →
      (syncService c item).1 = [Effect.Create ns (constructIngress S)]) ∧
    (((¬ ∃ v, ("ingress/http", v) ∈ S.ObjectMeta.Annotations) ∧
        (∃ ig, c.ingressLister ns name = Except.ok ig)) →
      (syncService c item).1 = [Effect.Delete ns name]) ∧
    (((∃ v, ("ingress/http", v) ∈ S.ObjectMeta.Annotations) ∧
        (∃ ig, c.ingressLister ns name = Except.ok ig)) →
      (syncService c item).1 = []) ∧
    (((¬ ∃ v, ("ingress/http", v) ∈ S.ObjectMeta.Annotations) ∧
        (¬ ∃ ig, c.ingressLister ns name = Except.ok ig)) →
      (syncService c item).1 = []) ∧
    (syncService c item).1.length ≤ 1 := by
  have hann := mapIndex_present_iff S.ObjectMeta.Annotations "ingress/http"
  cases hok : (mapIndex S.ObjectMeta.Annotations "ingress/http").2 with
  | true =>
    have hp : ∃ v, ("ingress/http", v) ∈ S.ObjectMeta.Annotations := hann.1 hok
    rcases hing with ⟨ig, hig⟩ | ⟨e, he, hnf⟩
    · simp [syncService, hkey, hsvc, hok, hig, errOf, objOf, IsNotFound_none, hp]
    · have hne : ¬ ∃ ig, c.ingressLister ns name = Except.ok ig := by
        rintro ⟨ig, hig⟩; rw [he] at hig; cases hig
      cases hcr : c.client.Create ns (constructIngress S) <;>
        simp [syncService, hkey, hsvc, hok, he, errOf, objOf, hnf, hp, hcr]
  | false =>
    have hp : ¬ ∃ v, ("ingress/http", v) ∈ S.ObjectMeta.Annotations := by
      intro h; rw [hann.2 h] at hok; cases hok
    rcases hing with ⟨ig, hig⟩ | ⟨e, he, hnf⟩
    · cases hdl : c.client.Delete ns name <;>
        simp [syncService, hkey, hsvc, hok, hig, errOf, objOf, IsNotFound_none, hp, hdl]
    · have hne : ¬ ∃ ig, c.ingressLister ns name = Except.ok ig := by
        rintro ⟨ig, hig⟩; rw [he] at hig; cases hig
      simp [syncService, hkey, hsvc, hok, he, errOf, objOf, hnf, hp]

/-- Witness of C1 on `default/foo`, annotated and without ingress. -/
theorem syncService_decision_table_witness :
    (syncService (clusterAnnotatedNoIngress.controller okClient WorkQueue.empty) "default/foo").1
      = [Effect.Create "default" (constructIngress fooAnnotated)] :=
  (syncService_decision_table (clusterAnnotatedNoIngress.controller okClient WorkQueue.empty)
    "default/foo" "default" "foo" fooAnnotated (by rfl) (by rfl)
    (Or.inr ⟨_, rfl, rfl⟩)).1
    ⟨⟨"", by decide⟩, by rintro ⟨ig, h⟩; cases h⟩

/-- C8: `syncService` returns the error `e` if and only if the key has more
than two "/"-separated parts (and `e` is the key format error), or the service
lookup fails with `e`, not a NotFound, or the ingress lookup fails with `e`,
not a NotFound, or the single mutating call it issues fails with `e` (whatever
`e` is, NotFound included); and when the service lookup reports NotFound it
returns no error and issues no call. -/
theorem syncService_error_iff (c : controller) (item : String) :
    (∀ e : Err, (syncService c item).2 = some e ↔
      ((2 < (splitSlash item.data).length ∧ e = Err.unexpectedKeyFormat item) ∨
       (∃ ns name, SplitMetaNamespaceKey item = Except.ok (ns, name) ∧
          c.serviceLister ns name = Except.error e ∧ IsNotFound (some e) = false) ∨
       (∃ ns name S, SplitMetaNamespaceKey item = Except.ok (ns, name) ∧
          c.serviceLister ns name = Except.ok S ∧
          c.ingressLister ns name = Except.error e ∧ IsNotFound (some e) = false) ∨
       (∃ call, (syncService c item).1 = [call] ∧ c.client.run call = some e))) ∧
    (∀ ns name e, SplitMetaNamespaceKey item = Except.ok (ns, name) →
      c.serviceLister ns name = Except.error e → IsNotFound (some e) = true →
      syncService c item = ([], none)) := by
  constructor
  · intro e
    rcases hkey : SplitMetaNamespaceKey item with e0 | ⟨ns, name⟩
    · have h0 := (SplitMetaNamespaceKey_error_iff item e0).1 hkey
      have hs : syncService c item = ([], some e0) := by simp [syncService, hkey]
      rw [hs]
      simp [h0.1, h0.2]
      exact eq_comm
    · have hlen := SplitMetaNamespaceKey_ok_length item ns name hkey
      have hlen2 : ¬ 2 < (splitSlash item.data).length := by omega
      rcases hsvc : c.serviceLister ns name with e1 | S
      · cases hnf : IsNotFound (some e1)
        · have hs : syncService c item = ([], some e1) := by
            simp [syncService, hkey, hsvc, hnf]
          rw [hs]
          simp [hlen2]
          constructor
          · rintro rfl; exact Or.inl ⟨ns, name, ⟨rfl, rfl⟩, hsvc, hnf⟩
          · rintro (⟨_, _, ⟨rfl, rfl⟩, h1, _⟩ | ⟨_, _, ⟨rfl, rfl⟩, ⟨x, hx⟩, _⟩)
            · rw [hsvc] at h1; exact Except.error.inj h1
            · rw [hsvc] at hx; cases hx
        · have hs : syncService c item = ([], none) := by
            simp [syncService, hkey, hsvc, hnf]
          rw [hs]
          simp [hlen2]
          refine ⟨fun h => ?_, fun x hx => ?_⟩
          · rw [hsvc] at h; cases h; exact hnf
          · rw [hsvc] at hx; cases hx
      · cases hok : (mapIndex S.ObjectMeta.Annotations "ingress/http").2 <;>
        rcases hing : c.ingressLister ns name with e2 | ig
        · cases hnf : IsNotFound (some e2)
          · have hs : syncService c item = ([], some e2) := by
              simp [syncService, hkey, hsvc, hok, hing, hnf, errOf, objOf]
            rw [hs]
            simp [hlen2, hsvc, hing]
            constructor
            · rintro rfl; exact Or.inr ⟨ns, name, ⟨rfl, rfl⟩, ⟨S, hsvc⟩, hing, hnf⟩
            · rintro (⟨_, _, ⟨rfl, rfl⟩, h1, _⟩ | ⟨_, _, ⟨rfl, rfl⟩, _, h2, _⟩)
              · rw [hsvc] at h1; cases h1
              · rw [hing] at h2; exact Except.error.inj h2
          · have hs : syncService c item = ([], none) := by
              simp [syncService, hkey, hsvc, hok, hing, hnf, errOf, objOf]
            rw [hs]
            simp [hlen2, hsvc, hing]
            rintro rfl; exact hnf
        · have hs : syncService c item = ([Effect.Delete ns name], c.client.Delete ns name) := by
            cases hdl : c.client.Delete ns name <;>
            simp [syncService, hkey, hsvc, hok, hing, errOf, objOf, IsNotFound_none, hdl]
          rw [hs]
          simp [hlen2, hsvc, hing, Client.run]
          constructor
          · intro h; exact Or.inr (Or.inr h)
          · rintro (⟨_, _, ⟨rfl, rfl⟩, h1, _⟩ | ⟨_, _, ⟨rfl, rfl⟩, _, h2, _⟩ | h)
            · rw [hsvc] at h1; cases h1
            · rw [hing] at h2; cases h2
            · exact h
        · cases hnf : IsNotFound (some e2)
          · have hs : syncService c item = ([], some e2) := by
              simp [syncService, hkey, hsvc, hok, hing, hnf, errOf, objOf]
            rw [hs]
            simp [hlen2, hsvc, hing]
            constructor
            · rintro rfl; exact Or.inr ⟨ns, name, ⟨rfl, rfl⟩, ⟨S, hsvc⟩, hing, hnf⟩
            · rintro (⟨_, _, ⟨rfl, rfl⟩, h1, _⟩ | ⟨_, _, ⟨rfl, rfl⟩, _, h2, _⟩)
              · rw [hsvc] at h1; cases h1
              · rw [hing] at h2; exact Except.error.inj h2
          · have hs : syncService c item =
                ([Effect.Create ns (constructIngress S)],
                  c.client.Create ns (constructIngress S)) := by
              cases hcr : c.client.Create ns (constructIngress S) <;>
              simp [syncService, hkey, hsvc, hok, hing, hnf, errOf, objOf, hcr]
            rw [hs]
            simp [hlen2, hsvc, hing, Client.run]
            constructor
            · intro h; exact Or.inr (Or.inr h)
            · rintro (⟨_, _, ⟨rfl, rfl⟩, h1, _⟩ | ⟨_, _, ⟨rfl, rfl⟩, _, h2, h3⟩ | h)
              · rw [hsvc] at h1; cases h1
              · rw [hing] at h2; cases h2; rw [hnf] at h3; cases h3
              · exact h
        · have hs : syncService c item = ([], none) := by
            simp [syncService, hkey, hsvc, hok, hing, errOf, objOf, IsNotFound_none]
          rw [hs]
          simp [hlen2, hsvc, hing]
  · intro ns name e hkey hsvc hnf
    simp [syncService, hkey, hsvc, hnf]

/-- Witness of C8 on a key of three parts. -/
theorem syncService_error_iff_witness :
    (syncService (clusterAnnotatedNoIngress.controller okClient WorkQueue.empty) "a/b/c").2
      = some (Err.unexpectedKeyFormat "a/b/c") :=
  ((syncService_error_iff (clusterAnnotatedNoIngress.controller okClient WorkQueue.empty)
    "a/b/c").1 (Err.unexpectedKeyFormat "a/b/c")).2 (Or.inl ⟨by decide, rfl⟩)

/-- C4, as stated, fails: for the service `default/foo` without the
annotation and an ingress `default/foo` that has no owner reference at all,
`syncService` issues the Delete call for that ingress. -/
theorem syncService_deletes_unowned :
    ¬ (∀ (cl : Cluster) (client : Client) (q : WorkQueue) (item ns name : String)
        (ig : Ingress),
        Effect.Delete ns name ∈ (syncService (cl.controller client q) item).1 →
        cl.ingressLister ns name = Except.ok ig →
        ∃ r, GetControllerOf ig.ObjectMeta = some r ∧ r.Kind = "Service") := by
  intro h
  obtain ⟨r, hr, _⟩ := h clusterPlainForeignIngress okClient WorkQueue.empty
    "default/foo" "default" "foo" fooUnowned (by decide) rfl
  have hnone : GetControllerOf fooUnowned.ObjectMeta = none := by decide
  rw [hnone] at hr
  cases hr

/-- C4, amended: `syncService` issues a Delete call for the ingress of a
namespace and name exactly when the key splits into that namespace and name,
the service lookup succeeds with a service that lacks the annotation
"ingress/http", and the ingress lookup returns an ingress; the owner
references of that ingress play no part. -/
theorem syncService_delete_iff (c : controller) (item ns name : String) :
    Effect.Delete ns name ∈ (syncService c item).1 ↔
      (SplitMetaNamespaceKey item = Except.ok (ns, name) ∧
        ∃ S, c.serviceLister ns name = Except.ok S ∧
          (¬ ∃ v, ("ingress/http", v) ∈ S.ObjectMeta.Annotations) ∧
          ∃ ig, c.ingressLister ns name = Except.ok ig) := by
  rcases hkey : SplitMetaNamespaceKey item with e0 | ⟨ns0, name0⟩
  · simp [syncService, hkey]
  · rcases hsvc : c.serviceLister ns0 name0 with e1 | S
    · have hs : (syncService c item).1 = [] := by
        cases hnf : IsNotFound (some e1) <;> simp [syncService, hkey, hsvc, hnf]
      rw [hs]
      simp only [List.not_mem_nil, false_iff]
      rintro ⟨h1, S, h2, _⟩
      cases h1
      rw [hsvc] at h2; cases h2
    · have hann := mapIndex_present_iff S.ObjectMeta.Annotations "ingress/http"
      cases hok : (mapIndex S.ObjectMeta.Annotations "ingress/http").2 <;>
      rcases hing : c.ingressLister ns0 name0 with e2 | ig
      · have hs : (syncService c item).1 = [] := by
          cases hnf : IsNotFound (some e2) <;>
            simp [syncService, hkey, hsvc, hok, hing, hnf, errOf, objOf]
        rw [hs]
        simp only [List.not_mem_nil, false_iff]
        rintro ⟨h1, _, _, _, ig, h3⟩
        cases h1
        rw [hing] at h3; cases h3
      · have hs : (syncService c item).1 = [Effect.Delete ns0 name0] := by
          cases hdl : c.client.Delete ns0 name0 <;>
          simp [syncService, hkey, hsvc, hok, hing, errOf, objOf, IsNotFound_none, hdl]
        rw [hs]
        constructor
        · intro h
          simp only [List.mem_singleton, Effect.Delete.injEq] at h
          obtain ⟨rfl, rfl⟩ := h
          refine ⟨rfl, S, hsvc, ?_, ig, hing⟩
          intro hp; rw [hann.2 hp] at hok; cases hok
        · rintro ⟨h1, _⟩
          cases h1
          simp
      · have hs : (syncService c item).1 ⊆ [Effect.Create ns0 (constructIngress S)] := by
          cases hnf : IsNotFound (some e2)
          · simp [syncService, hkey, hsvc, hok, hing, hnf, errOf, objOf]
          · cases hcr : c.client.Create ns0 (constructIngress S) <;>
            simp [syncService, hkey, hsvc, hok, hing, hnf, errOf, objOf, hcr]
        constructor
        · intro h
          have := hs h
          simp at this
        · rintro ⟨h1, _, _, _, ig, h3⟩
          cases h1
          rw [hing] at h3; cases h3
      · have hs : (syncService c item).1 = [] := by
          simp [syncService, hkey, hsvc, hok, hing, errOf, objOf, IsNotFound_none]
        rw [hs]
        simp only [List.not_mem_nil, false_iff]
        rintro ⟨h1, S1, h2, hno, _⟩
        cases h1
        rw [hsvc] at h2; cases h2
        exact hno (hann.1 hok)

/-! ### The event translator -/

theorem GetControllerOf_some (obj : ObjectMeta) (r : OwnerReference)
    (h : GetControllerOf obj = some r) :
    r ∈ obj.OwnerReferences ∧ r.Controller = some true := by
  unfold GetControllerOf at h
  refine ⟨List.mem_of_find?_eq_some h, ?_⟩
  have := List.find?_some h
  simpa using this

theorem GetControllerOf_none_iff (obj : ObjectMeta) :
    GetControllerOf obj = none ↔ ∀ r ∈ obj.OwnerReferences, r.Controller ≠ some true := by
  unfold GetControllerOf
  simp [List.find?_eq_none]

/-- C5: `deleteIngress` inserts into the queue if and only if the controller
owner reference of the deleted ingress (the owner reference with the
controller flag set to true) has kind "Service"; it then inserts exactly one
key, namespace + "/" + name of the ingress; otherwise controller and queue are
left unchanged and no call is made. The controller owner reference is the one
`GetControllerOf` returns, which is an owner reference of the ingress whose
controller flag is true, and the only such one when at most one owner
reference carries the flag. -/
theorem deleteIngress_ownership_filter (c : controller) (ingress : Ingress) :
    ((∃ k, Effect.QueueAdd k ∈ (deleteIngress c ingress).2) ↔
      ∃ r, GetControllerOf ingress.ObjectMeta = some r ∧ r.Kind = "Service") ∧
    ((∃ r, GetControllerOf ingress.ObjectMeta = some r ∧ r.Kind = "Service") →
      (deleteIngress c ingress).2 =
        [Effect.QueueAdd (ingress.ObjectMeta.Namespace ++ "/" ++ ingress.ObjectMeta.Name)] ∧
      (deleteIngress c ingress).1 =
        { c with queue :=
            c.queue.Add (ingress.ObjectMeta.Namespace ++ "/" ++ ingress.ObjectMeta.Name) }) ∧
    ((¬ ∃ r, GetControllerOf ingress.ObjectMeta = some r ∧ r.Kind = "Service") →
      deleteIngress c ingress = (c, [])) ∧
    (∀ r, GetControllerOf ingress.ObjectMeta = some r →
      r ∈ ingress.ObjectMeta.OwnerReferences ∧ r.Controller = some true) ∧
    ((∀ r₁ ∈ ingress.ObjectMeta.OwnerReferences, ∀ r₂ ∈ ingress.ObjectMeta.OwnerReferences,
        r₁.Controller = some true → r₂.Controller = some true → r₁ = r₂) →
      ((∃ r, GetControllerOf ingress.ObjectMeta = some r ∧ r.Kind = "Service") ↔
        ∃ r ∈ ingress.ObjectMeta.OwnerReferences,
          r.Controller = some true ∧ r.Kind = "Service")) := by
  refine ⟨?_, ?_, ?_, GetControllerOf_some ingress.ObjectMeta, ?_⟩
  · cases hg : GetControllerOf ingress.ObjectMeta with
    | none => simp [deleteIngress, hg]
    | some r =>
      by_cases hk : r.Kind = "Service" <;> simp [deleteIngress, hg, hk]
  · rintro ⟨r, hg, hk⟩
    simp [deleteIngress, hg, hk]
  · intro hno
    cases hg : GetControllerOf ingress.ObjectMeta with
    | none => simp [deleteIngress, hg]
    | some r =>
      have hk : r.Kind ≠ "Service" := fun hk => hno ⟨r, hg, hk⟩
      simp [deleteIngress, hg, hk]
  · intro huniq
    constructor
    · rintro ⟨r, hg, hk⟩
      obtain ⟨hmem, hc⟩ := GetControllerOf_some _ _ hg
      exact ⟨r, hmem, hc, hk⟩
    · rintro ⟨r, hmem, hc, hk⟩
      cases hg : GetControllerOf ingress.ObjectMeta with
      | none =>
        exact absurd hc ((GetControllerOf_none_iff _).1 hg r hmem)
      | some r0 =>
        obtain ⟨hmem0, hc0⟩ := GetControllerOf_some _ _ hg
        have : r0 = r := huniq r0 hmem0 r hmem hc0 hc
        subst this
        exact ⟨r0, rfl, hk⟩

/-- Witness of C5 on the ingress built for `default/foo`. -/
theorem deleteIngress_ownership_filter_witness :
    (deleteIngress (clusterAnnotatedNoIngress.controller okClient WorkQueue.empty)
      (constructIngress fooAnnotated)).2 = [Effect.QueueAdd "default/foo"] :=
  ((deleteIngress_ownership_filter
    (clusterAnnotatedNoIngress.controller okClient WorkQueue.empty)
    (constructIngress fooAnnotated)).2.1
    ⟨NewControllerRef fooAnnotated.ObjectMeta "v1" "Service", by decide, by decide⟩).1

/-! ### The reconcile function on a cluster -/

theorem syncService_create (c : controller) (item ns name : String) (S : Service) (e : Err)
    (hkey : SplitMetaNamespaceKey item = Except.ok (ns, name))
    (hsvc : c.serviceLister ns name = Except.ok S)
    (hok : (mapIndex S.ObjectMeta.Annotations "ingress/http").2 = true)
    (hing : c.ingressLister ns name = Except.error e) (hnf : IsNotFound (some e) = true) :
    syncService c item =
      ([Effect.Create ns (constructIngress S)], c.client.Create ns (constructIngress S)) := by
  cases hcr : c.client.Create ns (constructIngress S) <;>
    simp [syncService, hkey, hsvc, hok, hing, hnf, errOf, objOf, hcr]

theorem syncService_delete (c : controller) (item ns name : String) (S : Service)
    (ig : Ingress)
    (hkey : SplitMetaNamespaceKey item = Except.ok (ns, name))
    (hsvc : c.serviceLister ns name = Except.ok S)
    (hok : (mapIndex S.ObjectMeta.Annotations "ingress/http").2 = false)
    (hing : c.ingressLister ns name = Except.ok ig) :
    syncService c item = ([Effect.Delete ns name], c.client.Delete ns name) := by
  cases hdl : c.client.Delete ns name <;>
    simp [syncService, hkey, hsvc, hok, hing, errOf, objOf, IsNotFound_none, hdl]

theorem syncService_satisfied (c : controller) (item ns name : String) (S : Service)
    (ig : Ingress)
    (hkey : SplitMetaNamespaceKey item = Except.ok (ns, name))
    (hsvc : c.serviceLister ns name = Except.ok S)
    (hok : (mapIndex S.ObjectMeta.Annotations "ingress/http").2 = true)
    (hing : c.ingressLister ns name = Except.ok ig) :
    syncService c item = ([], none) := by
  simp [syncService, hkey, hsvc, hok, hing, errOf, objOf, IsNotFound_none]

theorem syncService_nothing (c : controller) (item ns name : String) (S : Service) (e : Err)
    (hkey : SplitMetaNamespaceKey item = Except.ok (ns, name))
    (hsvc : c.serviceLister ns name = Except.ok S)
    (hok : (mapIndex S.ObjectMeta.Annotations "ingress/http").2 = false)
    (hing : c.ingressLister ns name = Except.error e) (hnf : IsNotFound (some e) = true) :
    syncService c item = ([], none) := by
  simp [syncService, hkey, hsvc, hok, hing, hnf, errOf, objOf]

theorem syncService_gone (c : controller) (item ns name : String) (e : Err)
    (hkey : SplitMetaNamespaceKey item = Except.ok (ns, name))
    (hsvc : c.serviceLister ns name = Except.error e) (hnf : IsNotFound (some e) = true) :
    syncService c item = ([], none) := by
  simp [syncService, hkey, hsvc, hnf]

theorem splitSlash_of_not_mem (l : List Char) (h : '/' ∉ l) : splitSlash l = [l] := by
  induction l with
  | nil => rfl
  | cons c cs ih =>
    have hc : c ≠ '/' := fun hc => h (by simp [hc])
    have hcs : '/' ∉ cs := fun hm => h (List.mem_cons_of_mem _ hm)
    simp [splitSlash, hc, ih hcs]

theorem splitSlash_append_slash (l r : List Char) (h : '/' ∉ l) :
    splitSlash (l ++ '/' :: r) = l :: splitSlash r := by
  induction l with
  | nil => simp [splitSlash]
  | cons c cs ih =>
    have hc : c ≠ '/' := fun hc => h (by simp [hc])
    have hcs : '/' ∉ cs := fun hm => h (List.mem_cons_of_mem _ hm)
    simp [splitSlash, hc, ih hcs]

theorem SplitMetaNamespaceKey_of_key (obj : ObjectMeta)
    (hns : '/' ∉ obj.Namespace.data) (hname : '/' ∉ obj.Name.data) :
    SplitMetaNamespaceKey (MetaNamespaceKeyFunc obj) = Except.ok (obj.Namespace, obj.Name) := by
  unfold MetaNamespaceKeyFunc SplitMetaNamespaceKey
  by_cases hempty : obj.Namespace = ""
  · simp [hempty, splitSlash_of_not_mem _ hname]
  · have hdata : (obj.Namespace ++ "/" ++ obj.Name).data
        = obj.Namespace.data ++ '/' :: obj.Name.data := by
      simp [String.data_append]
    simp [hempty, hdata, splitSlash_append_slash _ _ hns, splitSlash_of_not_mem _ hname]

theorem Cluster.serviceLister_ok (cl : Cluster) (ns name : String) (S : Service)
    (h : cl.serviceLister ns name = Except.ok S) :
    S.ObjectMeta.Namespace = ns ∧ S.ObjectMeta.Name = name := by
  unfold Cluster.serviceLister at h
  split at h
  · rename_i s hfind
    cases h
    have := List.find?_some hfind
    simpa using this
  · cases h

theorem Cluster.ingressLister_ok (cl : Cluster) (ns name : String) (ig : Ingress)
    (h : cl.ingressLister ns name = Except.ok ig) :
    ig ∈ cl.ingresses ∧ ig.ObjectMeta.Namespace = ns ∧ ig.ObjectMeta.Name = name := by
  unfold Cluster.ingressLister at h
  split at h
  · rename_i s hfind
    cases h
    have := List.find?_some hfind
    exact ⟨List.mem_of_find?_eq_some hfind, by simpa using this⟩
  · cases h

theorem Cluster.ingressLister_error (cl : Cluster) (ns name : String) (e : Err)
    (h : cl.ingressLister ns name = Except.error e) :
    IsNotFound (some e) = true ∧
      ∀ ig ∈ cl.ingresses, ¬ (ig.ObjectMeta.Namespace = ns ∧ ig.ObjectMeta.Name = name) := by
  unfold Cluster.ingressLister at h
  split at h
  · cases h
  · rename_i hfind
    cases h
    refine ⟨rfl, ?_⟩
    intro ig hig
    have := List.find?_eq_none.1 hfind ig hig
    simpa using this

theorem Cluster.serviceLister_error (cl : Cluster) (ns name : String) (e : Err)
    (h : cl.serviceLister ns name = Except.error e) : IsNotFound (some e) = true := by
  unfold Cluster.serviceLister at h
  split at h
  · cases h
  · cases h; rfl

theorem ownedByService_constructIngress (S : Service) :
    ownedByService S (constructIngress S) = true := by
  simp [ownedByService, GetControllerOf, constructIngress, NewControllerRef, ObjectMeta.zero]

/-- C3, as stated, fails: the annotated service `default/foo` is in the
cluster together with an ingress `default/foo` that nobody owns; `syncService`
on its key returns no error and leaves the cluster as it is, where no ingress
`default/foo` has a controller owner reference of kind "Service" with the UID
of the service. -/
theorem syncService_keeps_foreign_ingress :
    ¬ (∀ (cl : Cluster) (client : Client) (q : WorkQueue) (S : Service),
        (∃ v, ("ingress/http", v) ∈ S.ObjectMeta.Annotations) →
        '/' ∉ S.ObjectMeta.Namespace.data → '/' ∉ S.ObjectMeta.Name.data →
        cl.serviceLister S.ObjectMeta.Namespace S.ObjectMeta.Name = Except.ok S →
        (syncService (cl.controller client q) (MetaNamespaceKeyFunc S.ObjectMeta)).2 = none →
        ∃ ig ∈ (cl.afterSync client
            (syncService (cl.controller client q) (MetaNamespaceKeyFunc S.ObjectMeta)).1).ingresses,
          ig.ObjectMeta.Namespace = S.ObjectMeta.Namespace ∧
          ig.ObjectMeta.Name = S.ObjectMeta.Name ∧ ownedByService S ig = true) := by
  intro h
  have h1 := h clusterAnnotatedForeignIngress okClient WorkQueue.empty fooAnnotated
    ⟨"", by decide⟩ (by decide) (by decide) rfl (by decide)
  revert h1
  decide

/-- C3, amended: for every service S that carries the annotation
"ingress/http", whose namespace and name contain no "/", and every cluster
state holding S in which no ingress with S's namespace and name exists, or the
existing one already has a controller owner reference of kind "Service" with
S's UID: if `syncService` on S's key returns no error, then in the resulting
state (a successful Create adds the built ingress) there is an ingress with
S's namespace and name whose controller owner reference has kind "Service" and
UID equal to S's UID. -/
theorem syncService_converges (cl : Cluster) (client : Client) (q : WorkQueue) (S : Service)
    (hann : ∃ v, ("ingress/http", v) ∈ S.ObjectMeta.Annotations)
    (hns : '/' ∉ S.ObjectMeta.Namespace.data) (hname : '/' ∉ S.ObjectMeta.Name.data)
    (hS : cl.serviceLister S.ObjectMeta.Namespace S.ObjectMeta.Name = Except.ok S)
    (hpre : ∀ ig, cl.ingressLister S.ObjectMeta.Namespace S.ObjectMeta.Name = Except.ok ig →
      ownedByService S ig = true)
    (hok : (syncService (cl.controller client q) (MetaNamespaceKeyFunc S.ObjectMeta)).2 = none) :
    ∃ ig ∈ (cl.afterSync client
        (syncService (cl.controller client q) (MetaNamespaceKeyFunc S.ObjectMeta)).1).ingresses,
      ig.ObjectMeta.Namespace = S.ObjectMeta.Namespace ∧
      ig.ObjectMeta.Name = S.ObjectMeta.Name ∧ ownedByService S ig = true := by
  have hkey := SplitMetaNamespaceKey_of_key S.ObjectMeta hns hname
  have hpres := (mapIndex_present_iff S.ObjectMeta.Annotations "ingress/http").2 hann
  rcases hing : cl.ingressLister S.ObjectMeta.Namespace S.ObjectMeta.Name with e | ig
  · have hnf := (Cluster.ingressLister_error cl _ _ e hing).1
    have hs := syncService_create (cl.controller client q) _ _ _ S e hkey hS hpres hing hnf
    rw [hs] at hok ⊢
    have hcr : client.Create S.ObjectMeta.Namespace (constructIngress S) = none := hok
    refine ⟨constructIngress S, ?_, rfl, rfl, ownedByService_constructIngress S⟩
    simp [Cluster.afterSync, Cluster.applyEffect, Cluster.controller, hcr]
  · have hs := syncService_satisfied (cl.controller client q) _ _ _ S ig hkey hS hpres hing
    rw [hs]
    obtain ⟨hmem, h1, h2⟩ := Cluster.ingressLister_ok cl _ _ ig hing
    exact ⟨ig, by simpa [Cluster.afterSync] using hmem, h1, h2, hpre ig hing⟩

/-- Witness of C3 (amended) on `default/foo`, annotated and without
ingress. -/
theorem syncService_converges_witness :
    ∃ ig ∈ (clusterAnnotatedNoIngress.afterSync okClient
        (syncService (clusterAnnotatedNoIngress.controller okClient WorkQueue.empty)
          (MetaNamespaceKeyFunc fooAnnotated.ObjectMeta)).1).ingresses,
      ig.ObjectMeta.Namespace = fooAnnotated.ObjectMeta.Namespace ∧
      ig.ObjectMeta.Name = fooAnnotated.ObjectMeta.Name ∧
      ownedByService fooAnnotated ig = true :=
  syncService_converges clusterAnnotatedNoIngress okClient WorkQueue.empty fooAnnotated
    ⟨"", by decide⟩ (by decide) (by decide) rfl (by intro ig h; cases h) (by decide)

theorem Cluster.afterSync_serviceLister (cl : Cluster) (client : Client) (effects : List Effect) :
    (cl.afterSync client effects).serviceLister = cl.serviceLister := by
  unfold Cluster.afterSync
  induction effects generalizing cl with
  | nil => rfl
  | cons e es ih =>
    rw [List.foldl_cons, ih]
    cases e <;> simp only [Cluster.applyEffect] <;> try rfl
    · split <;> rfl
    · split <;> rfl

theorem Cluster.ingressLister_after_delete (cl : Cluster) (client : Client) (ns name : String)
    (h : client.Delete ns name = none) :
    ∃ e, (cl.afterSync client [Effect.Delete ns name]).ingressLister ns name = Except.error e ∧
      IsNotFound (some e) = true := by
  have hfind : (cl.afterSync client [Effect.Delete ns name]).ingresses.find?
      (fun i => i.ObjectMeta.Namespace == ns && i.ObjectMeta.Name == name) = none := by
    rw [List.find?_eq_none]
    intro ig hig
    simp only [Cluster.afterSync, List.foldl_cons, List.foldl_nil, Cluster.applyEffect, h,
      if_true, List.mem_filter] at hig
    have h2 := hig.2
    simp only [Bool.not_eq_true', Bool.and_eq_false_iff, beq_eq_false_iff_ne, ne_eq,
      Bool.not_eq_eq_eq_not, Bool.not_true] at h2
    simp only [Bool.and_eq_true, beq_iff_eq, not_and]
    intro h3 h4
    rcases h2 with h2 | h2
    · exact h2 h3
    · exact h2 h4
  refine ⟨Err.status StatusReason.NotFound ("ingress " ++ name ++ " not found"), ?_, rfl⟩
  unfold Cluster.ingressLister
  rw [hfind]

theorem Cluster.ingressLister_after_create (cl : Cluster) (client : Client) (ns name : String)
    (ig : Ingress) (h : client.Create ns ig = none)
    (hns : ig.ObjectMeta.Namespace = ns) (hname : ig.ObjectMeta.Name = name) :
    ∃ ig2, (cl.afterSync client [Effect.Create ns ig]).ingressLister ns name = Except.ok ig2 := by
  cases hfind : (cl.afterSync client [Effect.Create ns ig]).ingresses.find?
      (fun i => i.ObjectMeta.Namespace == ns && i.ObjectMeta.Name == name) with
  | some ig2 =>
    refine ⟨ig2, ?_⟩
    unfold Cluster.ingressLister
    rw [hfind]
  | none =>
    rw [List.find?_eq_none] at hfind
    have := hfind ig (by
      simp [Cluster.afterSync, Cluster.applyEffect, h])
    simp [hns, hname] at this

/-- C6, as stated, fails: the annotated service `default/foo` has no ingress
and the Create call fails; the first invocation returns that error and leaves
the state as it was, and the second invocation issues the Create call
again. -/
theorem syncService_retries_failed_create :
    ¬ (∀ (cl : Cluster) (client : Client) (q : WorkQueue) (item : String),
        (syncService
          ((cl.afterSync client (syncService (cl.controller client q) item).1).controller
            client q) item).1 = []) := by
  intro h
  have h1 := h clusterAnnotatedNoIngress failingClient WorkQueue.empty "default/foo"
  revert h1
  decide

/-- C6, amended: for every key and every cluster state, if `syncService`
returns no error and is invoked a second time on the same key, observing
exactly the state the first invocation left (its own successful create or
delete applied, nothing else changed), then the second invocation issues no
mutating call. -/
theorem syncService_idempotent (cl : Cluster) (client : Client) (q : WorkQueue)
    (item : String)
    (hfirst : (syncService (cl.controller client q) item).2 = none) :
    (syncService
      ((cl.afterSync client (syncService (cl.controller client q) item).1).controller
        client q) item).1 = [] := by
  rcases hkey : SplitMetaNamespaceKey item with e0 | ⟨ns, name⟩
  · simp [syncService, hkey]
  · rcases hsvc : cl.serviceLister ns name with e1 | S
    · have hnf := Cluster.serviceLister_error cl ns name e1 hsvc
      have hs := syncService_gone (cl.controller client q) item ns name e1 hkey hsvc hnf
      rw [hs]
      exact congrArg Prod.fst hs
    · obtain ⟨hSns, hSname⟩ := Cluster.serviceLister_ok cl ns name S hsvc
      cases hok : (mapIndex S.ObjectMeta.Annotations "ingress/http").2 <;>
      rcases hing : cl.ingressLister ns name with e2 | ig
      · have hnf := (Cluster.ingressLister_error cl ns name e2 hing).1
        have hs := syncService_nothing (cl.controller client q) item ns name S e2
          hkey hsvc hok hing hnf
        rw [hs]
        exact congrArg Prod.fst hs
      · have hs := syncService_delete (cl.controller client q) item ns name S ig
          hkey hsvc hok hing
        rw [hs] at hfirst ⊢
        have hdl : client.Delete ns name = none := hfirst
        have hing2 : ∃ e, (cl.afterSync client [Effect.Delete ns name]).ingressLister ns name
            = Except.error e ∧ IsNotFound (some e) = true :=
          Cluster.ingressLister_after_delete cl client ns name hdl
        obtain ⟨e, he, hnf⟩ := hing2
        have hsvc2 : (cl.afterSync client [Effect.Delete ns name]).serviceLister ns name
            = Except.ok S := by
          rw [Cluster.afterSync_serviceLister]; exact hsvc
        exact congrArg Prod.fst (syncService_nothing
          ((cl.afterSync client [Effect.Delete ns name]).controller client q) item ns name S e
          hkey hsvc2 hok he hnf)
      · have hnf := (Cluster.ingressLister_error cl ns name e2 hing).1
        have hs := syncService_create (cl.controller client q) item ns name S e2
          hkey hsvc hok hing hnf
        rw [hs] at hfirst ⊢
        have hcr : client.Create ns (constructIngress S) = none := hfirst
        have hing2 : ∃ ig, (cl.afterSync client
            [Effect.Create ns (constructIngress S)]).ingressLister ns name = Except.ok ig :=
          Cluster.ingressLister_after_create cl client ns name (constructIngress S) hcr
            hSns hSname
        obtain ⟨ig, hig⟩ := hing2
        have hsvc2 : (cl.afterSync client
            [Effect.Create ns (constructIngress S)]).serviceLister ns name = Except.ok S := by
          rw [Cluster.afterSync_serviceLister]; exact hsvc
        exact congrArg Prod.fst (syncService_satisfied
          ((cl.afterSync client [Effect.Create ns (constructIngress S)]).controller client q)
          item ns name S ig hkey hsvc2 hok hig)
      · have hs := syncService_satisfied (cl.controller client q) item ns name S ig
          hkey hsvc hok hing
        rw [hs]
        exact congrArg Prod.fst hs

/-- Witness of C6 (amended) on `default/foo`, annotated and without
ingress, with a client whose calls succeed. -/
theorem syncService_idempotent_witness :
    (syncService
      ((clusterAnnotatedNoIngress.afterSync okClient
        (syncService (clusterAnnotatedNoIngress.controller okClient WorkQueue.empty)
          "default/foo").1).controller okClient WorkQueue.empty) "default/foo").1 = [] :=
  syncService_idempotent clusterAnnotatedNoIngress okClient WorkQueue.empty "default/foo"
    (by decide)

/-! ### The retry policy -/

theorem handleError_requeue (c : controller) (key : String) (err : Err)
    (h : c.queue.NumRequeues key ≤ maxRetry) :
    (handleError c key err).2 = [Effect.QueueAddRateLimited key] ∧
    (handleError c key err).1.queue.NumRequeues key = c.queue.NumRequeues key + 1 := by
  unfold handleError
  rw [if_pos h]
  refine ⟨rfl, ?_⟩
  simp only [WorkQueue.AddRateLimited, WorkQueue.NumRequeues]
  split_ifs <;> simp

theorem handleError_give_up (c : controller) (key : String) (err : Err)
    (h : maxRetry < c.queue.NumRequeues key) :
    (handleError c key err).2 = [Effect.HandleError err, Effect.QueueForget key] ∧
    (handleError c key err).1.queue.NumRequeues key = 0 := by
  unfold handleError
  rw [if_neg (by omega)]
  simp [WorkQueue.Forget, WorkQueue.NumRequeues]

theorem failRepeatedly_requeues (n : Nat) (c : controller) (key : String) (err : Err)
    (h : c.queue.NumRequeues key + n ≤ maxRetry + 1) :
    (failRepeatedly c key err n).2 = List.replicate n [Effect.QueueAddRateLimited key] ∧
    (failRepeatedly c key err n).1.queue.NumRequeues key = c.queue.NumRequeues key + n := by
  induction n generalizing c with
  | zero => exact ⟨rfl, rfl⟩
  | succ n ih =>
    have hle : c.queue.NumRequeues key ≤ maxRetry := by omega
    obtain ⟨h1, h2⟩ := handleError_requeue c key err hle
    obtain ⟨h3, h4⟩ := ih (handleError c key err).1 (by rw [h2]; omega)
    simp only [failRepeatedly]
    refine ⟨?_, ?_⟩
    · rw [List.replicate_succ, h1, h3]
    · rw [h4, h2]; omega

/-- C2 (the code at the failing input): starting from a retry count of zero
for the key, eleven consecutive failures are each answered by
`AddRateLimited` alone (the eleventh too, with nothing reported to the error
sink and no `Forget`), the retry count is then eleven, and it is the twelfth
failure that is reported once to the error sink and forgotten. -/
theorem handleError_eleventh_failure_requeues (c : controller) (key : String) (err : Err)
    (h0 : c.queue.NumRequeues key = 0) :
    (failRepeatedly c key err 11).2 = List.replicate 11 [Effect.QueueAddRateLimited key] ∧
    (failRepeatedly c key err 11).1.queue.NumRequeues key = 11 ∧
    (handleError (failRepeatedly c key err 10).1 key err).2 =
      [Effect.QueueAddRateLimited key] ∧
    (handleError (failRepeatedly c key err 11).1 key err).2 =
      [Effect.HandleError err, Effect.QueueForget key] ∧
    (handleError (failRepeatedly c key err 11).1 key err).1.queue.NumRequeues key = 0 := by
  obtain ⟨h1, h2⟩ := failRepeatedly_requeues 11 c key err (by rw [h0]; decide)
  obtain ⟨_, h4⟩ := failRepeatedly_requeues 10 c key err (by rw [h0]; decide)
  rw [h0] at h2 h4
  refine ⟨h1, by simpa using h2, ?_, ?_⟩
  · exact (handleError_requeue _ key err (by rw [h4]; decide)).1
  · exact handleError_give_up _ key err (by rw [h2]; decide)

/-- Witness of C2 on the key `ns1/svc1` of a fresh queue. -/
theorem handleError_eleventh_failure_requeues_witness :
    (handleError (failRepeatedly timeoutController "ns1/svc1"
      (Err.status StatusReason.Timeout "timeout") 10).1 "ns1/svc1"
      (Err.status StatusReason.Timeout "timeout")).2 =
      [Effect.QueueAddRateLimited "ns1/svc1"] :=
  (handleError_eleventh_failure_requeues timeoutController "ns1/svc1"
    (Err.status StatusReason.Timeout "timeout") rfl).2.2.1

/-! ### The worker step -/

theorem syncService_shape (c : controller) (item : String) :
    (syncService c item).1 = [] ∨
      (∃ ns ig, (syncService c item).1 = [Effect.Create ns ig]) ∨
      (∃ ns name, (syncService c item).1 = [Effect.Delete ns name]) := by
  rcases hkey : SplitMetaNamespaceKey item with e0 | ⟨ns, name⟩
  · left; simp [syncService, hkey]
  · rcases hsvc : c.serviceLister ns name with e1 | S
    · left
      cases hnf : IsNotFound (some e1) <;> simp [syncService, hkey, hsvc, hnf]
    · cases hok : (mapIndex S.ObjectMeta.Annotations "ingress/http").2 <;>
      rcases hing : c.ingressLister ns name with e2 | ig
      · left
        cases hnf : IsNotFound (some e2) <;>
          simp [syncService, hkey, hsvc, hok, hing, hnf, errOf, objOf]
      · right; right
        exact ⟨ns, name, congrArg Prod.fst (syncService_delete c item ns name S ig hkey hsvc hok hing)⟩
      · cases hnf : IsNotFound (some e2)
        · left
          simp [syncService, hkey, hsvc, hok, hing, hnf, errOf, objOf]
        · right; left
          exact ⟨ns, constructIngress S,
            congrArg Prod.fst (syncService_create c item ns name S e2 hkey hsvc hok hing hnf)⟩
      · left
        exact congrArg Prod.fst (syncService_satisfied c item ns name S ig hkey hsvc hok hing)

theorem syncService_effects (c : controller) (item : String) :
    ∀ x ∈ (syncService c item).1,
      (∃ ns ig, x = Effect.Create ns ig) ∨ (∃ ns name, x = Effect.Delete ns name) := by
  intro x hx
  rcases syncService_shape c item with h | ⟨ns, ig, h⟩ | ⟨ns, name, h⟩
  · rw [h] at hx; cases hx
  · rw [h] at hx; simp only [List.mem_singleton] at hx; exact Or.inl ⟨ns, ig, hx⟩
  · rw [h] at hx; simp only [List.mem_singleton] at hx; exact Or.inr ⟨ns, name, hx⟩

theorem WorkQueue.Get_failures (q q1 : WorkQueue) (item : String) (b : Bool)
    (h : q.Get = some (item, b, q1)) : q1.failures = q.failures := by
  unfold WorkQueue.Get at h
  split at h
  · split at h
    · cases h; rfl
    · cases h
  · cases h; rfl

theorem WorkQueue.Done_failures (q : WorkQueue) (item : String) :
    (q.Done item).failures = q.failures := by
  unfold WorkQueue.Done
  simp only
  split <;> rfl

theorem processNextItem_eq (c : controller) (item : String) (q1 : WorkQueue)
    (hget : c.queue.Get = some (item, false, q1)) :
    processNextItem c = some (true,
      { (match (syncService { c with queue := q1 } item).2 with
          | some err => handleError { c with queue := q1 } item err
          | none => ({ c with queue := q1 }, [])).1 with
        queue := (match (syncService { c with queue := q1 } item).2 with
          | some err => handleError { c with queue := q1 } item err
          | none => ({ c with queue := q1 }, [])).1.queue.Done item },
      [Effect.QueueGet, Effect.Println item] ++ (syncService { c with queue := q1 } item).1 ++
        (match (syncService { c with queue := q1 } item).2 with
          | some err => handleError { c with queue := q1 } item err
          | none => ({ c with queue := q1 }, [])).2 ++ [Effect.QueueDone item]) := by
  unfold processNextItem
  rw [hget]
  rfl

theorem syncService_queue (c : controller) (q : WorkQueue) (item : String) :
    syncService { c with queue := q } item = syncService c item := rfl

theorem WorkQueue.AddRateLimited_failures (q : WorkQueue) (key k : String) :
    (q.AddRateLimited key).failures k =
      if k = key then q.failures k + 1 else q.failures k := by
  simp only [WorkQueue.AddRateLimited]
  split_ifs <;> simp_all

theorem handleError_NumRequeues (c : controller) (key : String) (err : Err) (k : String) :
    (handleError c key err).1.queue.NumRequeues k =
      if k = key then
        (if c.queue.NumRequeues key ≤ maxRetry then c.queue.NumRequeues key + 1 else 0)
      else c.queue.NumRequeues k := by
  unfold handleError
  by_cases hle : c.queue.NumRequeues key ≤ maxRetry
  · rw [if_pos hle]
    simp only [WorkQueue.NumRequeues, WorkQueue.AddRateLimited_failures]
    have hle2 : c.queue.failures key ≤ maxRetry := hle
    by_cases hk : k = key
    · subst hk; simp [hle2]
    · simp [hk]
  · rw [if_neg hle]
    have hle2 : ¬ c.queue.failures key ≤ maxRetry := hle
    simp only [WorkQueue.Forget, WorkQueue.NumRequeues, hle2, if_false]

/-- The retry count across one `processNextItem` step that is handed the key
`item`: unchanged on success, with none of `Forget`, `AddRateLimited` and the
error sink called; one more on a failure within the bound; and dropping only
in the give-up branch of `handleError`. -/
theorem processNextItem_retry_count (c : controller) (item : String)
    (q1 : WorkQueue) (hget : c.queue.Get = some (item, false, q1)) :
    ((syncService c item).2 = none →
      ∃ c2 eff, processNextItem c = some (true, c2, eff) ∧
        (∀ k, Effect.QueueForget k ∉ eff) ∧
        (∀ k, Effect.QueueAddRateLimited k ∉ eff) ∧
        (∀ e, Effect.HandleError e ∉ eff) ∧
        (∀ k, c2.queue.NumRequeues k = c.queue.NumRequeues k)) ∧
    (∀ err, (syncService c item).2 = some err → c.queue.NumRequeues item ≤ maxRetry →
      ∃ c2 eff, processNextItem c = some (true, c2, eff) ∧
        Effect.QueueAddRateLimited item ∈ eff ∧
        c2.queue.NumRequeues item = c.queue.NumRequeues item + 1) ∧
    (∀ b c2 eff k, processNextItem c = some (b, c2, eff) →
      c2.queue.NumRequeues k < c.queue.NumRequeues k →
      k = item ∧ (∃ err, (syncService c item).2 = some err) ∧
        maxRetry < c.queue.NumRequeues item ∧ c2.queue.NumRequeues k = 0 ∧
        Effect.QueueForget item ∈ eff) := by
  have hpn := processNextItem_eq c item q1 hget
  rw [syncService_queue] at hpn
  have hf1 : q1.failures = c.queue.failures := WorkQueue.Get_failures _ _ _ _ hget
  cases herr : (syncService c item).2 with
  | none =>
    rw [herr] at hpn
    simp only [List.append_nil] at hpn
    have hcount : ∀ k, (q1.Done item).NumRequeues k = c.queue.NumRequeues k := by
      intro k
      simp only [WorkQueue.NumRequeues, WorkQueue.Done_failures, hf1]
    refine ⟨fun _ => ⟨_, _, hpn, ?_, ?_, ?_, hcount⟩, ?_, ?_⟩
    · intro k hk
      simp only [List.mem_append, List.mem_cons, List.mem_singleton, List.not_mem_nil,
        or_false, reduceCtorEq, false_or] at hk
      rcases syncService_effects c item _ hk with ⟨_, _, h⟩ | ⟨_, _, h⟩ <;> cases h
    · intro k hk
      simp only [List.mem_append, List.mem_cons, List.mem_singleton, List.not_mem_nil,
        or_false, reduceCtorEq, false_or] at hk
      rcases syncService_effects c item _ hk with ⟨_, _, h⟩ | ⟨_, _, h⟩ <;> cases h
    · intro e hk
      simp only [List.mem_append, List.mem_cons, List.mem_singleton, List.not_mem_nil,
        or_false, reduceCtorEq, false_or] at hk
      rcases syncService_effects c item _ hk with ⟨_, _, h⟩ | ⟨_, _, h⟩ <;> cases h
    · intro err h
      cases h
    · intro b c2 eff k hp hlt
      rw [hpn] at hp
      simp only [Option.some.injEq, Prod.mk.injEq] at hp
      obtain ⟨_, hc2, _⟩ := hp
      subst hc2
      have := hcount k
      simp only [WorkQueue.NumRequeues] at this hlt
      omega
  | some err =>
    rw [herr] at hpn
    simp only at hpn
    have hcount : ∀ k,
        ((handleError { c with queue := q1 } item err).1.queue.Done item).NumRequeues k =
          if k = item then
            (if c.queue.NumRequeues item ≤ maxRetry then c.queue.NumRequeues item + 1 else 0)
          else c.queue.NumRequeues k := by
      intro k
      have h := handleError_NumRequeues { c with queue := q1 } item err k
      simp only [WorkQueue.NumRequeues, WorkQueue.Done_failures, hf1] at h ⊢
      exact h
    refine ⟨fun h => ?_, ?_, ?_⟩
    · cases h
    · intro err2 h2 hle
      refine ⟨_, _, hpn, ?_, ?_⟩
      · have hle1 : ({ c with queue := q1 } : controller).queue.NumRequeues item ≤ maxRetry := by
          simpa [WorkQueue.NumRequeues, hf1] using hle
        have := (handleError_requeue { c with queue := q1 } item err hle1).1
        simp only [this]
        simp
      · have := hcount item
        simp only [if_true, hle] at this
        exact this
    · intro b c2 eff k hp hlt
      rw [hpn] at hp
      simp only [Option.some.injEq, Prod.mk.injEq] at hp
      obtain ⟨_, hc2, heff⟩ := hp
      subst hc2 heff
      have hk := hcount k
      by_cases hki : k = item
      · subst hki
        simp only [if_true] at hk
        by_cases hle : c.queue.NumRequeues k ≤ maxRetry
        · simp only [hle, if_true] at hk
          simp only [WorkQueue.NumRequeues] at hk hlt
          omega
        · simp only [hle, if_false] at hk
          refine ⟨rfl, ⟨err, rfl⟩, by omega, hk, ?_⟩
          have hgt : maxRetry < ({ c with queue := q1 } : controller).queue.NumRequeues k := by
            simp only [WorkQueue.NumRequeues, hf1]
            simp only [WorkQueue.NumRequeues] at hle
            omega
          have := (handleError_give_up { c with queue := q1 } k err hgt).1
          simp only [this]
          simp
      · simp only [hki, if_false] at hk
        simp only [WorkQueue.NumRequeues] at hk hlt
        omega

theorem handleError_shape (c : controller) (key : String) (err : Err) :
    (handleError c key err).1.queue.queue = c.queue.queue ∧
    (handleError c key err).1.queue.dirty = c.queue.dirty ∧
    (handleError c key err).1.queue.processing = c.queue.processing ∧
    (handleError c key err).1.queue.shuttingDown = c.queue.shuttingDown := by
  unfold handleError
  split
  · simp only [WorkQueue.AddRateLimited]
    split_ifs <;> exact ⟨rfl, rfl, rfl, rfl⟩
  · exact ⟨rfl, rfl, rfl, rfl⟩

theorem WorkQueue.Get_Add_idle (q : WorkQueue) (key : String) (h : q.idle key) :
    ∃ q1, (q.Add key).Get = some (key, false, q1) ∧ q1.queue = [] ∧ q1.dirty key = false ∧
      q1.shuttingDown = false ∧ q1.failures = q.failures := by
  obtain ⟨hq, hd, hp, hs⟩ := h
  have hadd : q.Add key =
      { q with dirty := fun x => if x = key then true else q.dirty x, queue := [key] } := by
    simp [WorkQueue.Add, hs, hd, hp, hq]
  rw [hadd]
  exact ⟨_, rfl, rfl, by simp, hs, rfl⟩

theorem WorkQueue.Done_idle (q : WorkQueue) (key : String)
    (hq : q.queue = []) (hd : q.dirty key = false) (hs : q.shuttingDown = false) :
    (q.Done key).idle key := by
  unfold WorkQueue.Done WorkQueue.idle
  simp [hd, hq, hs]

theorem round_idle (env : controller) (q : WorkQueue) (key : String) (h : q.idle key) :
    ∃ c eff, processNextItem { env with queue := q.Add key } = some (true, c, eff) ∧
      c.queue.idle key ∧
      c.queue.NumRequeues key =
        if syncFails key env then
          (if q.NumRequeues key ≤ maxRetry then q.NumRequeues key + 1 else 0)
        else q.NumRequeues key := by
  obtain ⟨q1, hget, hq1, hd1, hs1, hf1⟩ := WorkQueue.Get_Add_idle q key h
  have hpn := processNextItem_eq { env with queue := q.Add key } key q1 hget
  rw [syncService_queue, syncService_queue] at hpn
  cases herr : (syncService env key).2 with
  | none =>
    rw [herr] at hpn
    refine ⟨_, _, hpn, WorkQueue.Done_idle q1 key hq1 hd1 hs1, ?_⟩
    simp [syncFails, herr, WorkQueue.NumRequeues, WorkQueue.Done_failures, hf1]
  | some err =>
    rw [herr] at hpn
    obtain ⟨h1, h2, _, h4⟩ := handleError_shape { env with queue := q1 } key err
    refine ⟨_, _, hpn, WorkQueue.Done_idle _ key (by rw [h1]; exact hq1)
      (by rw [h2]; exact hd1) (by rw [h4]; exact hs1), ?_⟩
    have h := handleError_NumRequeues { env with queue := q1 } key err key
    simp only [WorkQueue.NumRequeues, WorkQueue.Done_failures, hf1, if_true] at h ⊢
    simp [syncFails, herr, h]

theorem rounds_accumulate (envs : List controller) (q : WorkQueue) (key : String)
    (h : q.idle key)
    (hb : q.NumRequeues key + (envs.filter (syncFails key)).length ≤ maxRetry + 1) :
    ∃ q2 effs, rounds q key envs = some (q2, effs) ∧ q2.idle key ∧
      q2.NumRequeues key = q.NumRequeues key + (envs.filter (syncFails key)).length := by
  induction envs generalizing q with
  | nil => exact ⟨q, [], rfl, h, rfl⟩
  | cons env envs ih =>
    obtain ⟨c, eff, hpn, hidle, hcount⟩ := round_idle env q key h
    cases hf : syncFails key env with
    | false =>
      simp only [hf, List.filter_cons_of_neg, Bool.false_eq_true, not_false_eq_true,
        if_false] at hb hcount ⊢
      obtain ⟨q2, effs, hr, hi2, hc2⟩ := ih c.queue hidle (by rw [hcount]; exact hb)
      refine ⟨q2, eff :: effs, ?_, hi2, by rw [hc2, hcount]⟩
      simp only [rounds, hpn, hr]
    | true =>
      simp only [hf, List.filter_cons_of_pos, List.length_cons, if_true] at hb hcount ⊢
      have hle : q.NumRequeues key ≤ maxRetry := by omega
      simp only [hle, if_true] at hcount
      obtain ⟨q2, effs, hr, hi2, hc2⟩ := ih c.queue hidle (by rw [hcount]; omega)
      refine ⟨q2, eff :: effs, ?_, hi2, by rw [hc2, hcount]; omega⟩
      simp only [rounds, hpn, hr]

/-- C10: when the worker is handed the key `item` and `syncService` returns
no error, `processNextItem` calls neither `Forget` nor `AddRateLimited` nor
the error sink, and the retry count of every key is what it was before; a
failure within the bound raises the count of the key by one; a retry count
only ever drops in the give-up branch of `handleError`, where it returns to
zero. Consequently, over successive reconciliations of a key, successful ones
in between included, the retry count is the number of failed ones, as long as
that stays within `maxRetry + 1`. -/
theorem processNextItem_success_keeps_retry_count (c : controller) (item : String)
    (q1 : WorkQueue) (hget : c.queue.Get = some (item, false, q1)) :
    ((syncService c item).2 = none →
      ∃ c2 eff, processNextItem c = some (true, c2, eff) ∧
        (∀ k, Effect.QueueForget k ∉ eff) ∧
        (∀ k, Effect.QueueAddRateLimited k ∉ eff) ∧
        (∀ e, Effect.HandleError e ∉ eff) ∧
        (∀ k, c2.queue.NumRequeues k = c.queue.NumRequeues k)) ∧
    (∀ err, (syncService c item).2 = some err → c.queue.NumRequeues item ≤ maxRetry →
      ∃ c2 eff, processNextItem c = some (true, c2, eff) ∧
        Effect.QueueAddRateLimited item ∈ eff ∧
        c2.queue.NumRequeues item = c.queue.NumRequeues item + 1) ∧
    (∀ b c2 eff k, processNextItem c = some (b, c2, eff) →
      c2.queue.NumRequeues k < c.queue.NumRequeues k →
      k = item ∧ (∃ err, (syncService c item).2 = some err) ∧
        maxRetry < c.queue.NumRequeues item ∧ c2.queue.NumRequeues k = 0 ∧
        Effect.QueueForget item ∈ eff) ∧
    (∀ (envs : List controller) (q : WorkQueue) (key : String), q.idle key →
      q.NumRequeues key + (envs.filter (syncFails key)).length ≤ maxRetry + 1 →
      ∃ q2 effs, rounds q key envs = some (q2, effs) ∧
        q2.NumRequeues key = q.NumRequeues key + (envs.filter (syncFails key)).length) := by
  obtain ⟨h1, h2, h3⟩ := processNextItem_retry_count c item q1 hget
  refine ⟨h1, h2, h3, ?_⟩
  intro envs q key hidle hb
  obtain ⟨q2, effs, hr, _, hc⟩ := rounds_accumulate envs q key hidle hb
  exact ⟨q2, effs, hr, hc⟩

/-- Witness of C10: `default/foo` is delivered with a retry count of one and
reconciled successfully. -/
theorem processNextItem_success_keeps_retry_count_witness :
    ∃ c2 eff,
      processNextItem (clusterAnnotatedNoIngress.controller okClient queueAfterOneFailure)
        = some (true, c2, eff) ∧
      (∀ k, Effect.QueueForget k ∉ eff) ∧
      (∀ k, Effect.QueueAddRateLimited k ∉ eff) ∧
      (∀ e, Effect.HandleError e ∉ eff) ∧
      (∀ k, c2.queue.NumRequeues k =
        (clusterAnnotatedNoIngress.controller okClient queueAfterOneFailure).queue.NumRequeues k) :=
  (processNextItem_success_keeps_retry_count
    (clusterAnnotatedNoIngress.controller okClient queueAfterOneFailure) "default/foo" _ rfl).1
    (by decide)

/-! ### Deduplication while a key is in flight -/

theorem WorkQueue.Add_eq (q : WorkQueue) (k : String) (hs : q.shuttingDown = false) :
    q.Add k =
      if q.dirty k then q
      else if q.processing k then
        { q with dirty := fun x => if x = k then true else q.dirty x }
      else
        { q with dirty := fun x => if x = k then true else q.dirty x, queue := q.queue ++ [k] } := by
  simp [WorkQueue.Add, hs]

theorem WorkQueue.Add_shuttingDown (q : WorkQueue) (k : String) :
    (q.Add k).shuttingDown = q.shuttingDown := by
  cases hs : q.shuttingDown with
  | true => simp [WorkQueue.Add, hs]
  | false =>
    rw [WorkQueue.Add_eq q k hs]
    split_ifs <;> simp [hs]

theorem WorkQueue.step_Get_cons (q : WorkQueue) (item : String) (rest : List String)
    (h : q.queue = item :: rest) :
    q.step QueueOp.Get =
      ({ q with
          queue := rest
          processing := fun x => if x = item then true else q.processing x
          dirty := fun x => if x = item then false else q.dirty x }, some item) := by
  simp only [WorkQueue.step, WorkQueue.Get, h]

theorem WorkQueue.step_Get_nil (q : WorkQueue) (h : q.queue = []) :
    q.step QueueOp.Get = (q, none) := by
  simp only [WorkQueue.step, WorkQueue.Get, h]
  cases q.shuttingDown <;> rfl

theorem WorkQueue.Done_eq (q : WorkQueue) (k : String) :
    q.Done k =
      if q.dirty k then
        { q with processing := fun x => if x = k then false else q.processing x,
                 queue := q.queue ++ [k] }
      else { q with processing := fun x => if x = k then false else q.processing x } := by
  simp only [WorkQueue.Done]

theorem WorkQueue.step_shuttingDown (q : WorkQueue) (op : QueueOp) :
    (q.step op).1.shuttingDown = q.shuttingDown := by
  cases op with
  | Add k => exact WorkQueue.Add_shuttingDown q k
  | Get =>
    cases hq : q.queue with
    | nil => rw [WorkQueue.step_Get_nil q hq]
    | cons item rest => rw [WorkQueue.step_Get_cons q item rest hq]
  | Done k =>
    simp only [WorkQueue.step, WorkQueue.Done_eq]
    split <;> rfl
  | AddRateLimited k =>
    simp only [WorkQueue.step, WorkQueue.AddRateLimited]
    split_ifs <;> rfl
  | Forget k => rfl
  | TimerFire k =>
    simp only [WorkQueue.step, WorkQueue.TimerFire]
    split
    · rw [WorkQueue.Add_shuttingDown]
    · rfl

theorem WorkQueue.Add_inflight (q : WorkQueue) (k K : String)
    (hp : q.processing K = true) (hq : K ∉ q.queue) (hs : q.shuttingDown = false) :
    (q.Add k).processing K = true ∧ K ∉ (q.Add k).queue ∧
      (q.dirty K = true → (q.Add k).dirty K = true) ∧ (k = K → (q.Add k).dirty K = true) := by
  rw [WorkQueue.Add_eq q k hs]
  by_cases hk : k = K
  · subst hk
    by_cases hd : q.dirty k = true
    · simp [hd, hp, hq]
    · simp [hd, hp, hq]
  · have hk2 : ¬ K = k := fun h => hk h.symm
    split_ifs <;> simp [hp, hq, hk, hk2]

theorem WorkQueue.step_inflight (q : WorkQueue) (op : QueueOp) (K : String)
    (hp : q.processing K = true) (hq : K ∉ q.queue) (hs : q.shuttingDown = false)
    (hop : op ≠ QueueOp.Done K) :
    (q.step op).1.processing K = true ∧ K ∉ (q.step op).1.queue ∧
      (q.step op).2 ≠ some K ∧
      (q.dirty K = true → (q.step op).1.dirty K = true) ∧
      (op = QueueOp.Add K → (q.step op).1.dirty K = true) := by
  cases op with
  | Add k =>
    obtain ⟨h1, h2, h3, h4⟩ := WorkQueue.Add_inflight q k K hp hq hs
    refine ⟨h1, h2, by simp [WorkQueue.step], h3, ?_⟩
    intro h
    cases h
    exact h4 rfl
  | Get =>
    cases hqq : q.queue with
    | nil =>
      rw [WorkQueue.step_Get_nil q hqq]
      exact ⟨hp, hq, by simp, id, by simp⟩
    | cons item rest =>
      rw [WorkQueue.step_Get_cons q item rest hqq]
      rw [hqq] at hq
      have hne : ¬ K = item := fun h => hq (by simp [h])
      have hrest : K ∉ rest := fun h => hq (List.mem_cons_of_mem _ h)
      refine ⟨by simp [hp], hrest, ?_, by simp [hne], by simp⟩
      simp only [ne_eq, Option.some.injEq]
      exact fun h => hne h.symm
  | Done k =>
    have hk : ¬ K = k := fun h => hop (by rw [h])
    simp only [WorkQueue.step, WorkQueue.Done_eq]
    split <;> simp [hp, hq, hk]
  | AddRateLimited k =>
    simp only [WorkQueue.step, WorkQueue.AddRateLimited]
    split_ifs <;> simp [hp, hq]
  | Forget k => simp [WorkQueue.step, WorkQueue.Forget, hp, hq]
  | TimerFire k =>
    simp only [WorkQueue.step, WorkQueue.TimerFire]
    split
    · obtain ⟨h1, h2, h3, _⟩ := WorkQueue.Add_inflight
        { q with waitingForAdd := q.waitingForAdd.erase k } k K hp hq hs
      exact ⟨h1, h2, by simp, h3, by simp⟩
    · exact ⟨hp, hq, by simp, id, by simp⟩

theorem count_toList (d : Option String) (K : String) (h : d ≠ some K) :
    d.toList.count K = 0 := by
  cases d with
  | none => rfl
  | some x =>
    have hx : x ≠ K := fun hx => h (by rw [hx])
    simp only [Option.toList]
    rw [List.count_cons_of_ne (Ne.symm hx)]
    rfl

theorem WorkQueue.run_cons (q : WorkQueue) (op : QueueOp) (ops : List QueueOp) :
    q.run (op :: ops) =
      (((q.step op).1.run ops).1, (q.step op).2.toList ++ ((q.step op).1.run ops).2) := rfl

theorem WorkQueue.run_inflight (ops : List QueueOp) (q : WorkQueue) (K : String)
    (hp : q.processing K = true) (hq : K ∉ q.queue) (hs : q.shuttingDown = false)
    (hop : QueueOp.Done K ∉ ops) :
    (q.run ops).1.processing K = true ∧ K ∉ (q.run ops).1.queue ∧
      (q.run ops).1.shuttingDown = false ∧ (q.run ops).2.count K = 0 ∧
      (q.dirty K = true ∨ QueueOp.Add K ∈ ops → (q.run ops).1.dirty K = true) := by
  induction ops generalizing q with
  | nil => exact ⟨hp, hq, hs, rfl, fun h => h.elim id (fun h => by cases h)⟩
  | cons op ops ih =>
    have hop1 : op ≠ QueueOp.Done K := fun h => hop (by simp [h])
    have hop2 : QueueOp.Done K ∉ ops := fun h => hop (List.mem_cons_of_mem _ h)
    obtain ⟨h1, h2, h3, h4, h5⟩ := WorkQueue.step_inflight q op K hp hq hs hop1
    have hs1 : (q.step op).1.shuttingDown = false := by rw [WorkQueue.step_shuttingDown]; exact hs
    obtain ⟨i1, i2, i3, i4, i5⟩ := ih (q.step op).1 h1 h2 hs1 hop2
    rw [WorkQueue.run_cons]
    refine ⟨i1, i2, i3, ?_, ?_⟩
    · simp only [List.count_append, count_toList _ K h3, i4]
    · intro h
      apply i5
      rcases h with h | h
      · exact Or.inl (h4 h)
      · rcases List.mem_cons.1 h with h | h
        · exact Or.inl (h5 h.symm)
        · exact Or.inr h

theorem WorkQueue.Add_settled (q : WorkQueue) (k K : String) (hk : k ≠ K)
    (hq : K ∉ q.queue) (hd : q.dirty K = false) (hs : q.shuttingDown = false) :
    K ∉ (q.Add k).queue ∧ (q.Add k).dirty K = false := by
  have hk2 : ¬ K = k := fun h => hk h.symm
  rw [WorkQueue.Add_eq q k hs]
  split_ifs <;> simp [hq, hd, hk2]

theorem WorkQueue.step_settled (q : WorkQueue) (op : QueueOp) (K : String)
    (hq : K ∉ q.queue) (hd : q.dirty K = false) (hs : q.shuttingDown = false)
    (hadd : op ≠ QueueOp.Add K) (htimer : op ≠ QueueOp.TimerFire K) :
    K ∉ (q.step op).1.queue ∧ (q.step op).1.dirty K = false ∧ (q.step op).2 ≠ some K := by
  cases op with
  | Add k =>
    have hk : k ≠ K := fun h => hadd (by rw [h])
    obtain ⟨h1, h2⟩ := WorkQueue.Add_settled q k K hk hq hd hs
    exact ⟨h1, h2, by simp [WorkQueue.step]⟩
  | Get =>
    cases hqq : q.queue with
    | nil =>
      rw [WorkQueue.step_Get_nil q hqq]
      exact ⟨hq, hd, by simp⟩
    | cons item rest =>
      rw [WorkQueue.step_Get_cons q item rest hqq]
      rw [hqq] at hq
      have hne : ¬ K = item := fun h => hq (by simp [h])
      have hrest : K ∉ rest := fun h => hq (List.mem_cons_of_mem _ h)
      refine ⟨hrest, by simp [hd], ?_⟩
      simp only [ne_eq, Option.some.injEq]
      exact fun h => hne h.symm
  | Done k =>
    simp only [WorkQueue.step, WorkQueue.Done_eq]
    by_cases hk : K = k
    · subst hk
      simp [hd, hq]
    · split <;> simp [hq, hd, hk]
  | AddRateLimited k =>
    simp only [WorkQueue.step, WorkQueue.AddRateLimited]
    split_ifs <;> simp [hq, hd]
  | Forget k => simp [WorkQueue.step, WorkQueue.Forget, hq, hd]
  | TimerFire k =>
    have hk : k ≠ K := fun h => htimer (by rw [h])
    simp only [WorkQueue.step, WorkQueue.TimerFire]
    split
    · obtain ⟨h1, h2⟩ := WorkQueue.Add_settled
        { q with waitingForAdd := q.waitingForAdd.erase k } k K hk hq hd hs
      exact ⟨h1, h2, by simp⟩
    · exact ⟨hq, hd, by simp⟩

theorem WorkQueue.run_settled (ops : List QueueOp) (q : WorkQueue) (K : String)
    (hq : K ∉ q.queue) (hd : q.dirty K = false) (hs : q.shuttingDown = false)
    (hadd : QueueOp.Add K ∉ ops) (htimer : QueueOp.TimerFire K ∉ ops) :
    (q.run ops).2.count K = 0 := by
  induction ops generalizing q with
  | nil => rfl
  | cons op ops ih =>
    have ha1 : op ≠ QueueOp.Add K := fun h => hadd (by simp [h])
    have ha2 : QueueOp.Add K ∉ ops := fun h => hadd (List.mem_cons_of_mem _ h)
    have ht1 : op ≠ QueueOp.TimerFire K := fun h => htimer (by simp [h])
    have ht2 : QueueOp.TimerFire K ∉ ops := fun h => htimer (List.mem_cons_of_mem _ h)
    obtain ⟨h1, h2, h3⟩ := WorkQueue.step_settled q op K hq hd hs ha1 ht1
    have hs1 : (q.step op).1.shuttingDown = false := by rw [WorkQueue.step_shuttingDown]; exact hs
    rw [WorkQueue.run_cons]
    simp only [List.count_append, count_toList _ K h3, ih (q.step op).1 h1 h2 hs1 ha2 ht2]

theorem WorkQueue.Add_pending (q : WorkQueue) (k K : String) (hk : k ≠ K)
    (hq : q.queue.count K = 1) (hd : q.dirty K = true) (hp : q.processing K = false)
    (hs : q.shuttingDown = false) :
    (q.Add k).queue.count K = 1 ∧ (q.Add k).dirty K = true ∧
      (q.Add k).processing K = false := by
  have hk2 : ¬ K = k := fun h => hk h.symm
  rw [WorkQueue.Add_eq q k hs]
  split_ifs <;> simp [hq, hd, hp, hk2, List.count_append, List.count_cons_of_ne hk2]

theorem WorkQueue.step_pending (q : WorkQueue) (op : QueueOp) (K : String)
    (hq : q.queue.count K = 1) (hd : q.dirty K = true) (hp : q.processing K = false)
    (hs : q.shuttingDown = false)
    (hadd : op ≠ QueueOp.Add K) (htimer : op ≠ QueueOp.TimerFire K)
    (hdone : op ≠ QueueOp.Done K) :
    ((q.step op).1.queue.count K = 1 ∧ (q.step op).1.dirty K = true ∧
        (q.step op).1.processing K = false ∧ (q.step op).2 ≠ some K) ∨
      (K ∉ (q.step op).1.queue ∧ (q.step op).1.dirty K = false ∧ (q.step op).2 = some K) := by
  cases op with
  | Add k =>
    have hk : k ≠ K := fun h => hadd (by rw [h])
    obtain ⟨h1, h2, h3⟩ := WorkQueue.Add_pending q k K hk hq hd hp hs
    exact Or.inl ⟨h1, h2, h3, by simp [WorkQueue.step]⟩
  | Get =>
    cases hqq : q.queue with
    | nil => rw [hqq] at hq; simp at hq
    | cons item rest =>
      rw [WorkQueue.step_Get_cons q item rest hqq]
      rw [hqq] at hq
      by_cases hne : K = item
      · subst hne
        right
        rw [List.count_cons_self] at hq
        have hrest : rest.count K = 0 := by omega
        exact ⟨List.count_eq_zero.1 hrest, by simp, rfl⟩
      · left
        rw [List.count_cons_of_ne hne] at hq
        refine ⟨hq, by simp [hne, hd], by simp [hne, hp], ?_⟩
        simp only [ne_eq, Option.some.injEq]
        exact fun h => hne h.symm
  | Done k =>
    have hk : ¬ K = k := fun h => hdone (by rw [h])
    left
    simp only [WorkQueue.step, WorkQueue.Done_eq]
    split <;> simp [hq, hd, hp, hk, List.count_append, List.count_cons_of_ne hk]
  | AddRateLimited k =>
    left
    simp only [WorkQueue.step, WorkQueue.AddRateLimited]
    split_ifs <;> simp [hq, hd, hp]
  | Forget k => left; simp [WorkQueue.step, WorkQueue.Forget, hq, hd, hp]
  | TimerFire k =>
    have hk : k ≠ K := fun h => htimer (by rw [h])
    left
    simp only [WorkQueue.step, WorkQueue.TimerFire]
    split
    · obtain ⟨h1, h2, h3⟩ := WorkQueue.Add_pending
        { q with waitingForAdd := q.waitingForAdd.erase k } k K hk hq hd hp hs
      exact ⟨h1, h2, h3, by simp⟩
    · exact ⟨hq, hd, hp, by simp⟩

theorem WorkQueue.admits_cons (q : WorkQueue) (op : QueueOp) (ops : List QueueOp)
    (h : q.admits (op :: ops) = true) :
    (∀ k, op = QueueOp.Done k → q.processing k = true) ∧ (q.step op).1.admits ops = true := by
  simp only [WorkQueue.admits, Bool.and_eq_true] at h
  refine ⟨?_, h.2⟩
  intro k hk
  subst hk
  exact h.1

theorem WorkQueue.run_pending (ops : List QueueOp) (q : WorkQueue) (K : String)
    (hq : q.queue.count K = 1) (hd : q.dirty K = true) (hp : q.processing K = false)
    (hs : q.shuttingDown = false) (hadm : q.admits ops = true)
    (hadd : QueueOp.Add K ∉ ops) (htimer : QueueOp.TimerFire K ∉ ops) :
    (q.run ops).2.count K ≤ 1 := by
  induction ops generalizing q with
  | nil => simp [WorkQueue.run]
  | cons op ops ih =>
    have ha1 : op ≠ QueueOp.Add K := fun h => hadd (by simp [h])
    have ha2 : QueueOp.Add K ∉ ops := fun h => hadd (List.mem_cons_of_mem _ h)
    have ht1 : op ≠ QueueOp.TimerFire K := fun h => htimer (by simp [h])
    have ht2 : QueueOp.TimerFire K ∉ ops := fun h => htimer (List.mem_cons_of_mem _ h)
    obtain ⟨hdn, hadm2⟩ := WorkQueue.admits_cons q op ops hadm
    have hd1 : op ≠ QueueOp.Done K := by
      intro h
      have := hdn K h
      rw [hp] at this
      cases this
    have hs1 : (q.step op).1.shuttingDown = false := by rw [WorkQueue.step_shuttingDown]; exact hs
    rw [WorkQueue.run_cons]
    rcases WorkQueue.step_pending q op K hq hd hp hs ha1 ht1 hd1 with
      ⟨h1, h2, h3, h4⟩ | ⟨h1, h2, h3⟩
    · simp only [List.count_append, count_toList _ K h4, Nat.zero_add]
      exact ih (q.step op).1 h1 h2 h3 hs1 hadm2 ha2 ht2
    · have := WorkQueue.run_settled ops (q.step op).1 K h1 h2 hs1 ha2 ht2
      simp only [List.count_append, this, h3, Option.toList, Nat.add_zero]
      simp

theorem WorkQueue.run_Get_all (l : List String) (q : WorkQueue) (h : q.queue = l) :
    (q.run (List.replicate l.length QueueOp.Get)).2 = l := by
  induction l generalizing q with
  | nil => rfl
  | cons item rest ih =>
    simp only [List.length_cons, List.replicate_succ, WorkQueue.run_cons,
      WorkQueue.step_Get_cons q item rest h, Option.toList, List.singleton_append]
    rw [ih _ rfl]

theorem WorkQueue.Inv_empty : WorkQueue.empty.Inv := by
  simp [WorkQueue.Inv, WorkQueue.empty]

theorem WorkQueue.Add_Inv (q : WorkQueue) (k : String) (h : q.Inv) : (q.Add k).Inv := by
  obtain ⟨hn, hall, hs⟩ := h
  rw [WorkQueue.Add_eq q k hs]
  by_cases hd : q.dirty k = true
  · simp only [hd, if_true]; exact ⟨hn, hall, hs⟩
  · simp only [hd, if_false]
    have hk : k ∉ q.queue := fun hm => hd (hall k hm).1
    by_cases hp : q.processing k = true
    · simp only [hp, if_true]
      refine ⟨hn, ?_, hs⟩
      intro x hx
      have := hall x hx
      by_cases hxk : x = k
      · simp [hxk, this.2] at hp ⊢
        rw [hxk] at this
        exact this.2
      · simp [hxk, this]
    · simp only [hp, if_false]
      refine ⟨?_, ?_, hs⟩
      · exact List.Nodup.append hn (List.nodup_singleton k) (by simpa using hk)
      · intro x hx
        rcases List.mem_append.1 hx with hx | hx
        · have := hall x hx
          by_cases hxk : x = k <;> simp [hxk, this]
          rw [hxk] at this
          exact this.2
        · simp only [List.mem_singleton] at hx
          subst hx
          simpa using hp

theorem WorkQueue.step_Inv (q : WorkQueue) (op : QueueOp) (h : q.Inv)
    (hdone : ∀ k, op = QueueOp.Done k → q.processing k = true) : (q.step op).1.Inv := by
  cases op with
  | Add k => exact WorkQueue.Add_Inv q k h
  | Get =>
    cases hqq : q.queue with
    | nil => rw [WorkQueue.step_Get_nil q hqq]; exact h
    | cons item rest =>
      rw [WorkQueue.step_Get_cons q item rest hqq]
      obtain ⟨hn, hall, hs⟩ := h
      rw [hqq] at hn hall
      have hn2 := List.nodup_cons.1 hn
      refine ⟨hn2.2, ?_, hs⟩
      intro x hx
      have hxi : x ≠ item := fun hxi => hn2.1 (hxi ▸ hx)
      have := hall x (List.mem_cons_of_mem _ hx)
      simp [hxi, this]
  | Done k =>
    obtain ⟨hn, hall, hs⟩ := h
    have hp := hdone k rfl
    have hk : k ∉ q.queue := fun hm => by
      have := (hall k hm).2
      rw [hp] at this
      cases this
    simp only [WorkQueue.step, WorkQueue.Done_eq]
    split
    · rename_i hd
      refine ⟨List.Nodup.append hn (List.nodup_singleton k) (by simpa using hk), ?_, hs⟩
      intro x hx
      rcases List.mem_append.1 hx with hx | hx
      · have := hall x hx
        by_cases hxk : x = k <;> simp [hxk, this]
        rw [hxk] at this
        exact this.1
      · simp only [List.mem_singleton] at hx
        subst hx
        simpa using hd
    · refine ⟨hn, ?_, hs⟩
      intro x hx
      have := hall x hx
      by_cases hxk : x = k <;> simp [hxk, this]
      rw [hxk] at this
      exact this.1
  | AddRateLimited k =>
    simp only [WorkQueue.step, WorkQueue.AddRateLimited]
    split_ifs <;> exact h
  | Forget k => exact h
  | TimerFire k =>
    simp only [WorkQueue.step, WorkQueue.TimerFire]
    split
    · exact WorkQueue.Add_Inv _ k h
    · exact h

theorem WorkQueue.run_Inv (ops : List QueueOp) (q : WorkQueue) (h : q.Inv)
    (hadm : q.admits ops = true) : (q.run ops).1.Inv := by
  induction ops generalizing q with
  | nil => exact h
  | cons op ops ih =>
    obtain ⟨hdn, hadm2⟩ := WorkQueue.admits_cons q op ops hadm
    rw [WorkQueue.run_cons]
    exact ih (q.step op).1 (WorkQueue.step_Inv q op h hdn) hadm2

theorem WorkQueue.Get_some (q q1 : WorkQueue) (K : String)
    (h : q.Get = some (K, false, q1)) :
    ∃ rest, q.queue = K :: rest ∧ q1.queue = rest ∧ q1.processing K = true ∧
      q1.shuttingDown = q.shuttingDown := by
  unfold WorkQueue.Get at h
  cases hq : q.queue with
  | nil =>
    rw [hq] at h
    simp only at h
    split at h <;> simp at h
  | cons item rest =>
    rw [hq] at h
    simp only [Option.some.injEq, Prod.mk.injEq, true_and] at h
    obtain ⟨h1, h2⟩ := h
    subst h1 h2
    exact ⟨rest, rfl, rfl, by simp, rfl⟩

/-- C9: in any queue reached from the empty one by calls that respect the
worker discipline, let a worker be handed the key K. While that
reconciliation is in flight (the worker has not called `Done K`), any calls
by the event handlers, the other workers and the timer, among them two
insertions of K, never hand K to a worker; once the worker calls `Done K`,
K is queued exactly once; from then on, without a further insertion of K, K
is handed out at most once, and it is handed out exactly once by the workers
that empty the queue. -/
theorem dedup_under_flight (history during after : List QueueOp) (K : String)
    (q1 : WorkQueue)
    (hhist : WorkQueue.empty.admits history = true)
    (hget : (WorkQueue.empty.run history).1.Get = some (K, false, q1))
    (hduring : QueueOp.Done K ∉ during)
    (hadds : 2 ≤ during.count (QueueOp.Add K))
    (hadm : ((q1.run during).1.Done K).admits after = true)
    (hadd : QueueOp.Add K ∉ after) (htimer : QueueOp.TimerFire K ∉ after) :
    (q1.run during).2.count K = 0 ∧
    ((q1.run during).1.Done K).queue.count K = 1 ∧
    (((q1.run during).1.Done K).run after).2.count K ≤ 1 ∧
    (((q1.run during).1.Done K).run
      (List.replicate ((q1.run during).1.Done K).queue.length QueueOp.Get)).2.count K = 1 := by
  obtain ⟨hn, hall, hs⟩ := WorkQueue.run_Inv history WorkQueue.empty WorkQueue.Inv_empty hhist
  obtain ⟨rest, hq, hq1, hp1, hs1⟩ := WorkQueue.Get_some _ _ _ hget
  rw [hq] at hn
  have hK : K ∉ q1.queue := by rw [hq1]; exact (List.nodup_cons.1 hn).1
  have hmem : QueueOp.Add K ∈ during := List.count_pos_iff.1 (by omega)
  obtain ⟨i1, i2, i3, i4, i5⟩ := WorkQueue.run_inflight during q1 K hp1 hK (by rw [hs1, hs]) hduring
  have hd := i5 (Or.inr hmem)
  have hdone : (q1.run during).1.Done K =
      { (q1.run during).1 with
        processing := fun x => if x = K then false else (q1.run during).1.processing x,
        queue := (q1.run during).1.queue ++ [K] } := by
    rw [WorkQueue.Done_eq, hd]; rfl
  have hcount : ((q1.run during).1.Done K).queue.count K = 1 := by
    rw [hdone]
    simp [List.count_append, List.count_eq_zero.2 i2]
  refine ⟨i4, hcount, ?_, ?_⟩
  · refine WorkQueue.run_pending after _ K hcount ?_ ?_ ?_ hadm hadd htimer
    · rw [hdone]; exact hd
    · rw [hdone]; simp
    · rw [hdone]; exact i3
  · rw [WorkQueue.run_Get_all _ _ rfl]
    exact hcount

/-- Witness of C9: `default/foo` is inserted twice, and another worker
polls the queue, while its reconciliation is in flight. -/
theorem dedup_under_flight_witness :
    (((WorkQueue.empty.Add "default/foo").step QueueOp.Get).1.run
        [QueueOp.Add "default/foo", QueueOp.Get, QueueOp.Add "default/foo"]).2.count
        "default/foo" = 0 ∧
    ((((WorkQueue.empty.Add "default/foo").step QueueOp.Get).1.run
        [QueueOp.Add "default/foo", QueueOp.Get, QueueOp.Add "default/foo"]).1.Done
        "default/foo").queue.count "default/foo" = 1 :=
  have h := dedup_under_flight [QueueOp.Add "default/foo"]
    [QueueOp.Add "default/foo", QueueOp.Get, QueueOp.Add "default/foo"]
    [QueueOp.Get, QueueOp.Done "default/foo", QueueOp.Get] "default/foo"
    ((WorkQueue.empty.Add "default/foo").step QueueOp.Get).1
    (by decide) rfl (by decide) (by decide) (by decide) (by decide) (by decide)
  ⟨h.1, h.2.1⟩

/-! ### The calls of the controller on the queue -/

theorem addService_queue (c : controller) (obj : Service) :
    (addService c obj).1.queue =
      (c.queue.step (QueueOp.Add (MetaNamespaceKeyFunc obj.ObjectMeta))).1 := rfl

theorem updateService_queue (c : controller) (oldObj newObj : Service) (h : oldObj ≠ newObj) :
    (updateService c oldObj newObj).1.queue =
      (c.queue.step (QueueOp.Add (MetaNamespaceKeyFunc newObj.ObjectMeta))).1 := by
  simp [updateService, h, enqueue, WorkQueue.step]

theorem deleteIngress_queue (c : controller) (ingress : Ingress) :
    (deleteIngress c ingress).1.queue = c.queue ∨
    (deleteIngress c ingress).1.queue =
      (c.queue.step
        (QueueOp.Add (ingress.ObjectMeta.Namespace ++ "/" ++ ingress.ObjectMeta.Name))).1 := by
  unfold deleteIngress
  split
  · exact Or.inl rfl
  · split
    · exact Or.inl rfl
    · exact Or.inr rfl

theorem processNextItem_queue (c : controller) (item : String) (q1 : WorkQueue)
    (hget : c.queue.Get = some (item, false, q1)) :
    ∃ c2 eff mid, processNextItem c = some (true, c2, eff) ∧
      (mid = [] ∨ mid = [QueueOp.AddRateLimited item] ∨ mid = [QueueOp.Forget item]) ∧
      c2.queue = (c.queue.run (QueueOp.Get :: (mid ++ [QueueOp.Done item]))).1 := by
  have hpn := processNextItem_eq c item q1 hget
  have hstep : c.queue.step QueueOp.Get = (q1, some item) := by
    simp only [WorkQueue.step, hget]
  cases herr : (syncService { c with queue := q1 } item).2 with
  | none =>
    rw [herr] at hpn
    refine ⟨_, _, [], hpn, Or.inl rfl, ?_⟩
    simp only [List.nil_append, WorkQueue.run_cons, hstep]
    rfl
  | some err =>
    rw [herr] at hpn
    by_cases hle : q1.NumRequeues item ≤ maxRetry
    · refine ⟨_, _, [QueueOp.AddRateLimited item], hpn, Or.inr (Or.inl rfl), ?_⟩
      simp only [List.singleton_append, WorkQueue.run_cons, hstep, handleError, hle, if_true]
      rfl
    · refine ⟨_, _, [QueueOp.Forget item], hpn, Or.inr (Or.inr rfl), ?_⟩
      simp only [List.singleton_append, WorkQueue.run_cons, hstep, handleError, hle, if_false]
      rfl

/-! ### Twelve failing rounds, end to end -/

/-- On a controller whose lookups always fail, twelve successive rounds of
`processNextItem` on `ns1/svc1` starting from a fresh queue: each of the first
eleven requeues the key with `AddRateLimited`, and the twelfth reports the
error and forgets the key. -/
theorem rounds_twelve_failures :
    (rounds WorkQueue.empty "ns1/svc1" (List.replicate 12 timeoutController)).map Prod.snd =
      some (List.replicate 11
          [Effect.QueueGet, Effect.Println "ns1/svc1",
            Effect.QueueAddRateLimited "ns1/svc1", Effect.QueueDone "ns1/svc1"] ++
        [[Effect.QueueGet, Effect.Println "ns1/svc1",
          Effect.HandleError (Err.status StatusReason.Timeout "timeout"),
          Effect.QueueForget "ns1/svc1", Effect.QueueDone "ns1/svc1"]]) := by
  decide

end IngressManager
